import Mathlib

/-!
Verification of the fake-news-detector application (src/fkn.py) against its
natural-language specification.

The program's verifiable core is embedded shallowly:

* `extract_json` — the regex-based JSON extractor (`re.search(r'\{.*?\}', text, re.DOTALL)`),
  modelled on `List Char` as "from the first `'{'` to the earliest `'}'` after it".
* a `Json` value type with a fueled recursive-descent reader modelling `json.loads`
  (restricted to integer numerals) and an indent-aware printer modelling
  `json.dumps(·, indent=2, ensure_ascii=False)`.
* `analyze_news` — the analysis pipeline over an opaque model reply.
* `Record`, `AppState`, `stepOp` — the session-history data model and the
  user-facing operations (analyze/append, filter, search, delete, clear, export).

Strings are modelled as `List Char` throughout.
-/

/-- Convert a string literal to the `List Char` representation used by the model. -/
def chars (s : String) : List Char :=
  s.toList

/-- Take characters up to and including the first `'}'`; `none` when no `'}'` occurs.
This is the lazy (`.*?`) tail of the extraction regex. -/
def takeToClose : List Char → Option (List Char)
  | [] => none
  | c :: rest => if c = '}' then some [c] else (takeToClose rest).map (fun s => c :: s)

/-- Shallow embedding of `extract_json` (src/fkn.py, lines 156-162):
`re.search(r'\{.*?\}', text, re.DOTALL)` produces the leftmost, lazily-shortest
match, i.e. the substring from the first `'{'` of the input to the earliest
`'}'` after it; `None` when there is no such pair. -/
def extract_json (text : List Char) : Option (List Char) :=
  match text.dropWhile (fun c => c ≠ '{') with
  | [] => none
  | c :: rest => (takeToClose rest).map (fun s => c :: s)

theorem takeToClose_eq_none (l : List Char) (h : '}' ∉ l) : takeToClose l = none := by
  induction l with
  | nil => rfl
  | cons c rest ih =>
    have hc : ¬ c = '}' := fun hc => h (hc ▸ List.mem_cons_self c rest)
    simp [takeToClose, hc, ih (fun hm => h (List.mem_cons_of_mem c hm))]

theorem takeToClose_append (mid post : List Char) (h : '}' ∉ mid) :
    takeToClose (mid ++ '}' :: post) = some (mid ++ ['}']) := by
  induction mid with
  | nil => simp [takeToClose]
  | cons c rest ih =>
    have hc : ¬ c = '}' := fun hc => h (hc ▸ List.mem_cons_self c rest)
    simp [takeToClose, hc, ih (fun hm => h (List.mem_cons_of_mem c hm))]

theorem dropWhile_append_of_all {p : Char → Bool} (pre t : List Char)
    (h : ∀ c ∈ pre, p c = true) :
    (pre ++ t).dropWhile p = t.dropWhile p := by
  induction pre with
  | nil => rfl
  | cons c rest ih =>
    have hc := h c (List.mem_cons_self c rest)
    simp [List.dropWhile, hc]
    exact ih (fun d hd => h d (List.mem_cons_of_mem c hd))

/-- Prepending brace-free text does not change what is extracted. -/
theorem extract_json_append_left (pre t : List Char) (h : '{' ∉ pre) :
    extract_json (pre ++ t) = extract_json t := by
  unfold extract_json
  rw [dropWhile_append_of_all pre t]
  intro c hc
  have : ¬ c = '{' := fun hc' => h (hc' ▸ hc)
  simp [this]

/-- On input starting with `'{'`, extraction takes up to the earliest `'}'`. -/
theorem extract_json_cons_open (rest : List Char) :
    extract_json ('{' :: rest) = (takeToClose rest).map (fun s => '{' :: s) := by
  simp [extract_json, List.dropWhile]

/-- An input with no `'{'` at all extracts nothing. -/
theorem extract_json_no_open (t : List Char) (h : '{' ∉ t) : extract_json t = none := by
  unfold extract_json
  have hnil : t.dropWhile (fun c => c ≠ '{') = [] := by
    rw [List.dropWhile_eq_nil_iff]
    intro x hx
    have : ¬ x = '{' := fun hc => h (hc ▸ hx)
    simp [this]
  rw [hnil]

/-- JSON values as produced by the stdlib decoder, with numerals restricted to
integers (the only numerals this application's data uses). Dictionaries are
association lists in document order. -/
inductive Json where
  | null : Json
  | bool (b : Bool) : Json
  | num (n : Int) : Json
  | str (s : List Char) : Json
  | arr (items : List Json) : Json
  | obj (members : List (List Char × Json)) : Json

mutual

/-- Structural equality test on JSON values (Python `==` on parsed values). -/
def jeq : Json → Json → Bool
  | .null, .null => true
  | .bool a, .bool b => a == b
  | .num a, .num b => a == b
  | .str a, .str b => a == b
  | .arr a, .arr b => jeqItems a b
  | .obj a, .obj b => jeqMembers a b
  | _, _ => false

/-- Equality test on JSON arrays, elementwise. -/
def jeqItems : List Json → List Json → Bool
  | [], [] => true
  | a :: as, b :: bs => jeq a b && jeqItems as bs
  | _, _ => false

/-- Equality test on JSON objects, memberwise in order. -/
def jeqMembers : List (List Char × Json) → List (List Char × Json) → Bool
  | [], [] => true
  | (k, v) :: as, (l, w) :: bs => k == l && jeq v w && jeqMembers as bs
  | _, _ => false

end

instance : BEq Json := ⟨jeq⟩

/-- The four whitespace characters the stdlib JSON decoder skips. -/
def isWsC (c : Char) : Bool :=
  c = ' ' || c = '\t' || c = '\n' || c = '\r'

/-- Skip whitespace. -/
def skipWs (t : List Char) : List Char :=
  t.dropWhile isWsC

/-- ASCII decimal digit test. -/
def isDigitC (c : Char) : Bool :=
  48 ≤ c.toNat && c.toNat ≤ 57

/-- Numeric value of an ASCII digit. -/
def digitVal (c : Char) : Nat :=
  c.toNat - 48

/-- Single-character JSON string escapes recognised after a backslash. -/
def unescape (c : Char) : Option Char :=
  if c = '"' then some '"'
  else if c = '\\' then some '\\'
  else if c = '/' then some '/'
  else if c = 'n' then some '\n'
  else if c = 't' then some '\t'
  else if c = 'r' then some '\r'
  else if c = 'b' then some (Char.ofNat 8)
  else if c = 'f' then some (Char.ofNat 12)
  else none

/-- Read a JSON string body after the opening quote, up to and past the closing
quote; returns the decoded body and the remaining input. -/
def parseStringBody : List Char → Option (List Char × List Char)
  | [] => none
  | c :: rest =>
    if c = '\\' then
      match rest with
      | [] => none
      | e :: rest2 =>
        match unescape e with
        | some d => (parseStringBody rest2).map (fun p => (d :: p.1, p.2))
        | none => none
    else if c = '"' then some ([], rest)
    else (parseStringBody rest).map (fun p => (c :: p.1, p.2))

/-- Read a nonempty run of decimal digits as a natural number. -/
def parseDigits (t : List Char) : Option (Nat × List Char) :=
  if (t.takeWhile isDigitC).isEmpty then none
  else some ((t.takeWhile isDigitC).foldl (fun a c => 10 * a + digitVal c) 0,
             t.dropWhile isDigitC)

mutual

/-- Modelled from the spec: the application parses the extracted text with the
stdlib `json.loads` (src/fkn.py line 177, and the export page parses nothing but
the spec's round-trip property refers to the same decoder). This is a fueled
recursive-descent reader for the JSON grammar with integer numerals; fuel is
spent on each nested call, and `parseJson` below supplies enough fuel for any
input it is given. -/
def parseValue : Nat → List Char → Option (Json × List Char)
  | 0, _ => none
  | fuel + 1, t =>
    match skipWs t with
    | [] => none
    | c :: r =>
      if c = '{' then parseObjBody fuel (skipWs r)
      else if c = '[' then parseArrBody fuel (skipWs r)
      else if c = '"' then (parseStringBody r).map (fun p => (Json.str p.1, p.2))
      else if c = '-' then (parseDigits r).map (fun p => (Json.num (-(p.1 : Int)), p.2))
      else if isDigitC c then
        (parseDigits (c :: r)).map (fun p => (Json.num (p.1 : Int), p.2))
      else
        match c :: r with
        | 'n' :: 'u' :: 'l' :: 'l' :: r2 => some (Json.null, r2)
        | 't' :: 'r' :: 'u' :: 'e' :: r2 => some (Json.bool true, r2)
        | 'f' :: 'a' :: 'l' :: 's' :: 'e' :: r2 => some (Json.bool false, r2)
        | _ => none

/-- Object interior directly after `'{'` (whitespace already skipped). -/
def parseObjBody : Nat → List Char → Option (Json × List Char)
  | 0, _ => none
  | fuel + 1, t =>
    match t with
    | [] => none
    | c :: r =>
      if c = '}' then some (Json.obj [], r)
      else (parseMembers fuel (c :: r)).map (fun p => (Json.obj p.1, p.2))

/-- A nonempty comma-separated member list, consuming the closing `'}'`. -/
def parseMembers : Nat → List Char → Option (List (List Char × Json) × List Char)
  | 0, _ => none
  | fuel + 1, t =>
    match t with
    | [] => none
    | c :: r =>
      if c = '"' then
        match parseStringBody r with
        | none => none
        | some (k, r1) =>
          match skipWs r1 with
          | [] => none
          | c2 :: r2 =>
            if c2 = ':' then
              match parseValue fuel r2 with
              | none => none
              | some (v, r3) =>
                match skipWs r3 with
                | [] => none
                | c3 :: r4 =>
                  if c3 = ',' then
                    match parseMembers fuel (skipWs r4) with
                    | none => none
                    | some (ms, r5) => some ((k, v) :: ms, r5)
                  else if c3 = '}' then some ([(k, v)], r4)
                  else none
            else none
      else none

/-- Array interior directly after `'['` (whitespace already skipped). -/
def parseArrBody : Nat → List Char → Option (Json × List Char)
  | 0, _ => none
  | fuel + 1, t =>
    match t with
    | [] => none
    | c :: r =>
      if c = ']' then some (Json.arr [], r)
      else (parseItems fuel (c :: r)).map (fun p => (Json.arr p.1, p.2))

/-- A nonempty comma-separated item list, consuming the closing `']'`. -/
def parseItems : Nat → List Char → Option (List Json × List Char)
  | 0, _ => none
  | fuel + 1, t =>
    match parseValue fuel t with
    | none => none
    | some (v, r1) =>
      match skipWs r1 with
      | [] => none
      | c :: r2 =>
        if c = ',' then
          match parseItems fuel r2 with
          | none => none
          | some (vs, r3) => some (v :: vs, r3)
        else if c = ']' then some ([v], r2)
        else none

end

/-- The decoder `json.loads`: one JSON document, with nothing but whitespace
allowed after it. -/
def parseJson (t : List Char) : Option Json :=
  match parseValue (t.length + 1) t with
  | some (v, r) => if (skipWs r).isEmpty then some v else none
  | none => none

example : parseJson (chars "\x7b\"verdict\":\"Fake\",\"reason\":\"x\",\"credibility_score\":10\x7d") =
    some (Json.obj [(chars "verdict", Json.str (chars "Fake")),
                    (chars "reason", Json.str (chars "x")),
                    (chars "credibility_score", Json.num 10)]) := by rfl

example : parseJson (chars " [1, -22, \x7b\"a\": [true, null]\x7d] ") =
    some (Json.arr [Json.num 1, Json.num (-22),
                    Json.obj [(chars "a", Json.arr [Json.bool true, Json.null])]]) := by rfl

example : parseJson (chars "\x7b\"a\": 1") = none := by rfl

example : parseJson (chars "\x7b\"verdict\": \x7b\"a\"") = none := by rfl

theorem takeToClose_some : ∀ (u s : List Char), takeToClose u = some s →
    ∃ mid post, u = mid ++ '}' :: post ∧ '}' ∉ mid ∧ s = mid ++ ['}']
  | [], s, h => by simp [takeToClose] at h
  | c :: rest, s, h => by
    by_cases hc : c = '}'
    · subst hc
      simp [takeToClose] at h
      exact ⟨[], rest, by simp, by simp, by simp [← h]⟩
    · simp only [takeToClose, if_neg hc] at h
      obtain ⟨a, ha, rfl⟩ := Option.map_eq_some'.mp h
      obtain ⟨mid, post, hu, hm, ha'⟩ := takeToClose_some rest a ha
      refine ⟨c :: mid, post, by simp [hu], ?_, by simp [ha']⟩
      intro hmem
      rcases List.mem_cons.mp hmem with h1 | h1
      · exact hc h1.symm
      · exact hm h1

/-- Anything extracted is a brace-free-prefixed, earliest-close-terminated
substring of the input. -/
theorem extract_json_some : ∀ (t s : List Char), extract_json t = some s →
    ∃ pre mid post, t = pre ++ s ++ post ∧ '{' ∉ pre ∧ '}' ∉ mid ∧ s = '{' :: mid ++ ['}']
  | [], s, h => by simp [extract_json] at h
  | c :: t, s, h => by
    by_cases hc : c = '{'
    · subst hc
      rw [extract_json_cons_open] at h
      obtain ⟨a, ha, rfl⟩ := Option.map_eq_some'.mp h
      obtain ⟨mid, post, hu, hm, ha'⟩ := takeToClose_some t a ha
      exact ⟨[], mid, post, by simp [hu, ha'], by simp, hm, by simp [ha']⟩
    · have hstep : extract_json (c :: t) = extract_json t := by
        have h1 := extract_json_append_left [c] t
          (fun hm => hc (List.mem_singleton.mp hm).symm)
        simpa using h1
      rw [hstep] at h
      obtain ⟨pre, mid, post, h1, h2, h3, h4⟩ := extract_json_some t s h
      refine ⟨c :: pre, mid, post, by simp [h1], ?_, h3, h4⟩
      intro hmem
      rcases List.mem_cons.mp hmem with h5 | h5
      · exact hc h5.symm
      · exact h2 h5

/-- Extraction on an input decomposed as brace-free text, then `'{'`, then
close-free text, then `'}'`, then anything: exactly the middle block comes back. -/
theorem extract_json_of_decomp (pre mid post : List Char)
    (hpre : '{' ∉ pre) (hmid : '}' ∉ mid) :
    extract_json (pre ++ '{' :: mid ++ '}' :: post) = some ('{' :: mid ++ ['}']) := by
  have h1 : pre ++ '{' :: mid ++ '}' :: post = pre ++ ('{' :: (mid ++ '}' :: post)) := by
    simp [List.append_assoc]
  rw [h1, extract_json_append_left pre _ hpre, extract_json_cons_open,
    takeToClose_append mid post hmid]
  rfl

/-- If the input has no `'{'` followed (anywhere later) by a `'}'`, extraction fails. -/
theorem extract_json_none_of_no_pair (t : List Char)
    (h : ¬ ∃ pre mid post, t = pre ++ '{' :: mid ++ '}' :: post) :
    extract_json t = none := by
  cases hx : extract_json t with
  | none => rfl
  | some s =>
    exfalso
    obtain ⟨pre, mid, post, h1, _, _, h4⟩ := extract_json_some t s hx
    exact h ⟨pre, mid, post, by simpa [h4] using h1⟩

/-- Decimal digit character. -/
def digitCh : Nat → Char
  | 0 => '0'
  | 1 => '1'
  | 2 => '2'
  | 3 => '3'
  | 4 => '4'
  | 5 => '5'
  | 6 => '6'
  | 7 => '7'
  | 8 => '8'
  | _ => '9'

/-- Decimal numeral of a natural number. -/
def serNat (n : Nat) : List Char :=
  if n = 0 then ['0'] else ((Nat.digits 10 n).reverse).map digitCh

/-- Decimal numeral of an integer. -/
def serInt (i : Int) : List Char :=
  if i < 0 then '-' :: serNat i.natAbs else serNat i.natAbs

/-- String-body escaping performed by `json.dumps(..., ensure_ascii=False)` for
the quote and backslash characters; other characters pass through unchanged in
this model, and the decoder model accepts them back unchanged. -/
def escStr : List Char → List Char
  | [] => []
  | c :: s => if c = '"' || c = '\\' then '\\' :: c :: escStr s else c :: escStr s

/-- Newline followed by `n` spaces: what `json.dumps(..., indent=2)` emits
before an element indented by `n` columns. -/
def nlIndent (n : Nat) : List Char :=
  '\n' :: List.replicate n ' '

mutual

/-- Modelled from the spec: the export serializes with the stdlib
`json.dumps(history, indent=2, ensure_ascii=False)` (src/fkn.py line 475).
`lvl` is the current nesting depth. -/
def serVal (lvl : Nat) : Json → List Char
  | .null => chars "null"
  | .bool true => chars "true"
  | .bool false => chars "false"
  | .num i => serInt i
  | .str s => '"' :: (escStr s ++ ['"'])
  | .arr [] => chars "[]"
  | .arr (v :: vs) => '[' :: (serItemsD lvl v vs ++ nlIndent (2 * lvl) ++ [']'])
  | .obj [] => chars "\x7b\x7d"
  | .obj ((k, v) :: ms) => '{' :: (serMembersD lvl k v ms ++ nlIndent (2 * lvl) ++ ['}'])
termination_by j => sizeOf j

/-- Nonempty array items, each on its own indented line. -/
def serItemsD (lvl : Nat) (v : Json) : List Json → List Char
  | [] => nlIndent (2 * (lvl + 1)) ++ serVal (lvl + 1) v
  | w :: ws => nlIndent (2 * (lvl + 1)) ++ serVal (lvl + 1) v ++ ',' :: serItemsD lvl w ws
termination_by vs => sizeOf v + sizeOf vs

/-- Nonempty object members, each as `"key": value` on its own indented line. -/
def serMembersD (lvl : Nat) (k : List Char) (v : Json) :
    List (List Char × Json) → List Char
  | [] => nlIndent (2 * (lvl + 1)) ++
      '"' :: (escStr k ++ '"' :: ':' :: ' ' :: serVal (lvl + 1) v)
  | (l, w) :: ms => nlIndent (2 * (lvl + 1)) ++
      '"' :: (escStr k ++ '"' :: ':' :: ' ' :: serVal (lvl + 1) v) ++
      ',' :: serMembersD lvl l w ms
termination_by ms => sizeOf v + sizeOf ms

end

/-- An analysis record as appended by the detector page (src/fkn.py 353-362).
The `verdict`, `reason` and `score` fields hold whatever JSON values the parsed
model reply contained: the code validates only their presence. -/
structure Record where
  text : List Char
  full_text : List Char
  verdict : Json
  reason : Json
  score : Json
  timestamp : List Char
  language : List Char
  model : List Char

/-- The JSON image of a record: the dict the detector stores, keys in insertion
order. -/
def recordToJson (r : Record) : Json :=
  Json.obj [(chars "text", Json.str r.text),
            (chars "full_text", Json.str r.full_text),
            (chars "verdict", r.verdict),
            (chars "reason", r.reason),
            (chars "score", r.score),
            (chars "timestamp", Json.str r.timestamp),
            (chars "language", Json.str r.language),
            (chars "model", Json.str r.model)]

/-- The text the JSON export offers for download (src/fkn.py line 475). -/
def dumpsHistory (h : List Record) : List Char :=
  serVal 0 (Json.arr (h.map recordToJson))

/-- Result of one analysis call: either the parsed reply dict or a dict
carrying an `error` key (modelled by `errorRes` with its message). -/
inductive AnalysisResult where
  | okRecord (j : Json) : AnalysisResult
  | errorRes (msg : List Char) : AnalysisResult

/-- Whether the analysis produced the labeled error dict. -/
def isErrorRes : AnalysisResult → Bool
  | .okRecord _ => false
  | .errorRes _ => true

/-- Python `key in result` on the parsed reply. -/
def hasKey (j : Json) (k : List Char) : Bool :=
  match j with
  | .obj ms => ms.any (fun m => m.1 == k)
  | _ => false

/-- Python dict indexing `result[key]`: the last binding wins when a document
holds duplicate keys, as in the stdlib decoder. -/
def jget (j : Json) (k : List Char) : Json :=
  match j with
  | .obj ms => ((ms.filter (fun m => m.1 == k)).getLast?).elim Json.null Prod.snd
  | _ => Json.null

/-- The field-presence validation of src/fkn.py line 179. -/
def requiredKeys (j : Json) : Bool :=
  hasKey j (chars "verdict") && hasKey j (chars "reason") &&
    hasKey j (chars "credibility_score")

/-- Shallow embedding of `analyze_news` (src/fkn.py 164-185) as a function of
the configuration and of the opaque model call outcome: `call` is `.ok raw`
when `model.generate_content(...).text` returned the free text `raw`, and
`.error e` when the network/model call raised an exception with message `e`.
A decode failure of the extracted text raises inside the `try` and is caught
by the same `except` as a call failure. -/
def analyze_news (hasApiKey : Bool) (call : Except (List Char) (List Char)) :
    AnalysisResult :=
  if !hasApiKey then .errorRes (chars "API key not configured")
  else
    match call with
    | .error e => .errorRes (chars "Analysis failed: " ++ e)
    | .ok raw =>
      match extract_json raw with
      | some jstr =>
        match parseJson jstr with
        | some j =>
          if requiredKeys j then .okRecord j
          else .errorRes (chars "Invalid response format")
        | none => .errorRes (chars "Analysis failed: json decode error")
      | none => .errorRes (chars "Invalid response format")

/-- The excerpt stored in a record (src/fkn.py line 354). -/
def excerpt (t : List Char) : List Char :=
  t.take 300 ++ (if 300 < t.length then chars "..." else [])

/-- The record appended on a successful analysis (src/fkn.py 353-362); `now` is
the formatted timestamp, `lang` the session language. -/
def mkRecord (text now lang : List Char) (j : Json) : Record :=
  { text := excerpt text
    full_text := text
    verdict := jget j (chars "verdict")
    reason := jget j (chars "reason")
    score := jget j (chars "credibility_score")
    timestamp := now
    language := lang
    model := chars "Gemini 1.5 Flash" }

/-- Per-session state: the history list (`st.session_state.history`). -/
structure AppState where
  history : List Record

/-- Whitespace accepted around a numeral by Python `int(str)` (`str.strip`):
the ASCII blanks; non-ASCII Unicode spaces are not modelled. -/
def isPySpaceC (c : Char) : Bool :=
  c = ' ' || c = '\t' || c = '\n' || c = '\r' || c = Char.ofNat 11 || c = Char.ofNat 12

/-- A digit run as Python `int(str)` accepts it: nonempty, and single
underscores may stand between digits (never leading, trailing or doubled). -/
def pyIntDigitRun : List Char → Bool
  | [] => false
  | [c] => isDigitC c
  | c :: d :: rest =>
    isDigitC c &&
      (if d = '_' then
        (match rest with
         | [] => false
         | _ :: _ => pyIntDigitRun rest)
      else pyIntDigitRun (d :: rest))

/-- Numeric value of a digit run, underscores skipped. -/
def digitRunVal (s : List Char) : Nat :=
  (s.filter (fun c => c != '_')).foldl (fun a c => 10 * a + digitVal c) 0

/-- Python `int` on a string: optional surrounding whitespace, an optional
sign, then a digit run; anything else raises ValueError. -/
def pyIntOfStr (s : List Char) : Option Int :=
  match ((s.dropWhile isPySpaceC).reverse.dropWhile isPySpaceC).reverse with
  | '-' :: ds => if pyIntDigitRun ds then some (-(digitRunVal ds : Int)) else none
  | '+' :: ds => if pyIntDigitRun ds then some ((digitRunVal ds : Int)) else none
  | ds => if pyIntDigitRun ds then some ((digitRunVal ds : Int)) else none

/-- Python `int(x)` (src/fkn.py line 347 applies it to the parsed score) on the
values the decoder produces: ints pass through, booleans convert to 0/1,
strings go through `int(str)`, and None/lists/dicts raise TypeError. -/
def pyInt : Json → Option Int
  | Json.num n => some n
  | Json.bool b => some (if b then 1 else 0)
  | Json.str s => pyIntOfStr s
  | _ => none

/-- Whether the display code between a successful result and the history
append (src/fkn.py 337-350) runs without raising: `verdict_style` (line 337,
def at 189) calls `.lower()` on the verdict, so the verdict must be a string;
line 347 computes `st.progress(int(result["credibility_score"]) / 100)`, so
the score must convert with `int` and the quotient must lie in [0, 1], i.e.
0 ≤ int(score) ≤ 100. When this is false the script run raises before the
append at line 353. -/
def rendersOk (j : Json) : Bool :=
  (match jget j (chars "verdict") with
   | Json.str _ => true
   | _ => false) &&
  (match pyInt (jget j (chars "credibility_score")) with
   | some n => decide (0 ≤ n) && decide (n ≤ 100)
   | none => false)

/-- The user actions that can touch the history. -/
inductive Op where
  | analyze (text : List Char) (hasApiKey : Bool)
      (call : Except (List Char) (List Char)) (now lang : List Char) : Op
  | deleteEntry (ts : List Char) : Op
  | clearAll : Op
  | viewHistory (searchTerm verdictChoice : List Char) : Op
  | exportPage : Op

/-- The delete loop (src/fkn.py 437-442): remove the first record whose
timestamp equals the selected entry's timestamp; `st.rerun()` exits the loop
after the first hit. -/
def removeFirstByTs : List Record → List Char → List Record
  | [], _ => []
  | r :: rest, ts => if r.timestamp == ts then rest else r :: removeFirstByTs rest ts

/-- One user action on the session state. The analyze branch mirrors
page_detector (src/fkn.py 323-364): blank text is refused before any call, an
error result is only displayed, and a successful result is first rendered —
`verdict_style`'s `.lower()` (line 337) and `int(...)`/`st.progress` (line
347) raise for a non-string verdict or a non-convertible or out-of-range
score, aborting the script run before the append at line 353 with the session
state unchanged — and only a result that renders is appended as one record. -/
def stepOp (s : AppState) : Op → AppState
  | .analyze text hasApiKey call now lang =>
    if (text.dropWhile isWsC).isEmpty then s
    else
      match analyze_news hasApiKey call with
      | .okRecord j =>
        if rendersOk j then ⟨s.history ++ [mkRecord text now lang j]⟩ else s
      | .errorRes _ => s
  | .deleteEntry ts => ⟨removeFirstByTs s.history ts⟩
  | .clearAll => ⟨[]⟩
  | .viewHistory _ _ => s
  | .exportPage => s

/-- Session states reachable from the empty history (src/fkn.py line 88). -/
inductive Reachable : AppState → Prop where
  | init : Reachable ⟨[]⟩
  | step (s : AppState) (op : Op) : Reachable s → Reachable (stepOp s op)

/-- Python `str.lower` on the ASCII range; other characters pass unchanged. -/
def toLowerC (c : Char) : Char :=
  if 'A' ≤ c && c ≤ 'Z' then Char.ofNat (c.toNat + 32) else c

/-- Lowercase a whole string. -/
def lowerStr (t : List Char) : List Char :=
  t.map toLowerC

/-- Python substring test `pat in t`. -/
def isSubstr (pat : List Char) : List Char → Bool
  | [] => pat.isEmpty
  | c :: rest => pat.isPrefixOf (c :: rest) || isSubstr pat rest

/-- The search filter (src/fkn.py 414-415): case-insensitive substring match of
the term against the stored excerpt field, applied only to nonempty terms. -/
def searchFiltered (h : List Record) (term : List Char) : List Record :=
  if term.isEmpty then h
  else h.filter (fun r => isSubstr (lowerStr term) (lowerStr r.text))

/-- The verdict filter (src/fkn.py 416-417). -/
def verdictFiltered (h : List Record) (v : List Char) : List Record :=
  if v == chars "All" then h
  else h.filter (fun r => r.verdict == Json.str v)

/-- The combined filtering pipeline of the history page (src/fkn.py 413-417). -/
def filteredHistory (h : List Record) (term v : List Char) : List Record :=
  verdictFiltered (searchFiltered h term) v

theorem searchFiltered_sublist (h : List Record) (term : List Char) :
    (searchFiltered h term).Sublist h := by
  unfold searchFiltered
  split
  · exact List.Sublist.refl h
  · exact List.filter_sublist h

theorem verdictFiltered_sublist (h : List Record) (v : List Char) :
    (verdictFiltered h v).Sublist h := by
  unfold verdictFiltered
  split
  · exact List.Sublist.refl h
  · exact List.filter_sublist h

/-- C4: filtering the history by a verdict and by a substring search each
return a subsequence of the original list — every returned record is in the
original history, in the original relative order — and so does the history
page's combined pipeline. -/
theorem filters_return_subsequences (h : List Record) (term v : List Char) :
    (searchFiltered h term).Sublist h ∧ (verdictFiltered h v).Sublist h ∧
      (filteredHistory h term v).Sublist h ∧
      (∀ r ∈ searchFiltered h term, r ∈ h) ∧ (∀ r ∈ verdictFiltered h v, r ∈ h) := by
  refine ⟨searchFiltered_sublist h term, verdictFiltered_sublist h v, ?_, ?_, ?_⟩
  · exact (verdictFiltered_sublist (searchFiltered h term) v).trans
      (searchFiltered_sublist h term)
  · exact fun r hr => (searchFiltered_sublist h term).mem hr
  · exact fun r hr => (verdictFiltered_sublist h v).mem hr

theorem removeFirstByTs_append_no_match (a b : List Record) (ts : List Char)
    (hno : ∀ r ∈ a, r.timestamp ≠ ts) :
    removeFirstByTs (a ++ b) ts = a ++ removeFirstByTs b ts := by
  induction a with
  | nil => rfl
  | cons r rest ih =>
    have hb : (r.timestamp == ts) = false := by
      simpa using hno r (List.mem_cons_self r rest)
    have ih' := ih (fun q hq => hno q (List.mem_cons_of_mem r hq))
    simp [removeFirstByTs, hb, ih']

theorem removeFirstByTs_no_match (h : List Record) (ts : List Char)
    (hno : ∀ r ∈ h, r.timestamp ≠ ts) : removeFirstByTs h ts = h := by
  have h1 := removeFirstByTs_append_no_match h [] ts hno
  simpa [removeFirstByTs] using h1

/-- C10: individual deletion removes exactly the first record whose timestamp
equals the selected entry's timestamp and leaves every other record unchanged;
consequently, when an earlier record shares the timestamp of the selected later
record, it is the earlier record that disappears and the selected one stays. -/
theorem delete_removes_first_timestamp_match (s : AppState) (ts : List Char) :
    ((∀ r ∈ s.history, r.timestamp ≠ ts) →
        (stepOp s (Op.deleteEntry ts)).history = s.history) ∧
    (∀ pre r post, s.history = pre ++ r :: post → (∀ q ∈ pre, q.timestamp ≠ ts) →
        r.timestamp = ts → (stepOp s (Op.deleteEntry ts)).history = pre ++ post) ∧
    (∀ pre r1 mid r2 post, s.history = pre ++ r1 :: mid ++ r2 :: post →
        (∀ q ∈ pre, q.timestamp ≠ ts) → r1.timestamp = ts → r2.timestamp = ts →
        (stepOp s (Op.deleteEntry ts)).history = pre ++ mid ++ r2 :: post) := by
  have key : ∀ pre r post, s.history = pre ++ r :: post → (∀ q ∈ pre, q.timestamp ≠ ts) →
      r.timestamp = ts → (stepOp s (Op.deleteEntry ts)).history = pre ++ post := by
    intro pre r post hs hno hr
    have hb : (r.timestamp == ts) = true := by simpa using hr
    show removeFirstByTs s.history ts = pre ++ post
    rw [hs, removeFirstByTs_append_no_match pre (r :: post) ts hno]
    simp [removeFirstByTs, hb]
  refine ⟨?_, key, ?_⟩
  · intro hno
    show removeFirstByTs s.history ts = s.history
    exact removeFirstByTs_no_match s.history ts hno
  · intro pre r1 mid r2 post hs hno hr1 hr2
    have h2 := key pre r1 (mid ++ r2 :: post)
      (by simpa [List.append_assoc] using hs) hno hr1
    simpa [List.append_assoc] using h2

/-- C6: each failure mode of an analysis — missing API key, an exception from
the model call, or a reply with no parseable JSON object carrying the three
required fields — produces the labeled error dict rather than an exception (the
embedding is a total function), and a success is only ever produced with the
three keys present. -/
theorem analyze_failures_are_labeled_errors (hasApiKey : Bool)
    (call : Except (List Char) (List Char)) :
    (hasApiKey = false →
        analyze_news hasApiKey call = AnalysisResult.errorRes (chars "API key not configured")) ∧
    (∀ e, call = Except.error e → hasApiKey = true →
        analyze_news hasApiKey call
          = AnalysisResult.errorRes (chars "Analysis failed: " ++ e)) ∧
    (∀ raw, call = Except.ok raw → hasApiKey = true → extract_json raw = none →
        analyze_news hasApiKey call = AnalysisResult.errorRes (chars "Invalid response format")) ∧
    (∀ raw jstr, call = Except.ok raw → hasApiKey = true → extract_json raw = some jstr →
        parseJson jstr = none → isErrorRes (analyze_news hasApiKey call) = true) ∧
    (∀ raw jstr j, call = Except.ok raw → hasApiKey = true → extract_json raw = some jstr →
        parseJson jstr = some j → requiredKeys j = false →
        analyze_news hasApiKey call = AnalysisResult.errorRes (chars "Invalid response format")) ∧
    (∀ j, analyze_news hasApiKey call = AnalysisResult.okRecord j → requiredKeys j = true) := by
  refine ⟨?_, ?_, ?_, ?_, ?_, ?_⟩
  · intro hk; simp [analyze_news, hk]
  · intro e hc hk; simp [analyze_news, hk, hc]
  · intro raw hc hk hx; simp [analyze_news, hk, hc, hx]
  · intro raw jstr hc hk hx hp; simp [analyze_news, hk, hc, hx, hp, isErrorRes]
  · intro raw jstr j hc hk hx hp hreq; simp [analyze_news, hk, hc, hx, hp, hreq]
  · intro j hok
    by_cases hk : hasApiKey = true
    · cases hcall : call with
      | error e => rw [hcall] at hok; simp [analyze_news, hk] at hok
      | ok raw =>
        rw [hcall] at hok
        cases hx : extract_json raw with
        | none => simp [analyze_news, hk, hx] at hok
        | some jstr =>
          cases hp : parseJson jstr with
          | none => simp [analyze_news, hk, hx, hp] at hok
          | some pj =>
            by_cases hreq : requiredKeys pj = true
            · have hpj : pj = j := by
                simpa [analyze_news, hk, hx, hp, hreq] using hok
              rw [← hpj]
              exact hreq
            · simp [analyze_news, hk, hx, hp, hreq] at hok
    · have hk' : hasApiKey = false := by simpa using hk
      simp [analyze_news, hk'] at hok

theorem removeFirstByTs_eq_or_eraseIdx (h : List Record) (ts : List Char) :
    removeFirstByTs h ts = h ∨ ∃ i, removeFirstByTs h ts = h.eraseIdx i := by
  induction h with
  | nil => exact Or.inl rfl
  | cons r rest ih =>
    by_cases hb : (r.timestamp == ts) = true
    · exact Or.inr ⟨0, by simp [removeFirstByTs, hb, List.eraseIdx]⟩
    · have hb' : (r.timestamp == ts) = false := by simpa using hb
      rcases ih with h1 | ⟨i, h2⟩
      · exact Or.inl (by simp [removeFirstByTs, hb', h1])
      · exact Or.inr ⟨i + 1, by simp [removeFirstByTs, hb', h2, List.eraseIdx]⟩

/-- C7: a history record is created only by a successful analysis (as an append
at the end); an analysis that returns an error result leaves the state
untouched; deletion removes at most one record and alters none; clearing
empties the list; viewing and exporting change nothing. -/
theorem history_mutation_discipline (s : AppState) :
    (∀ text k call now lang, isErrorRes (analyze_news k call) = true →
        stepOp s (Op.analyze text k call now lang) = s) ∧
    (∀ text k call now lang j, analyze_news k call = AnalysisResult.okRecord j →
        (stepOp s (Op.analyze text k call now lang)).history = s.history ∨
        (stepOp s (Op.analyze text k call now lang)).history
          = s.history ++ [mkRecord text now lang j]) ∧
    (∀ ts, (stepOp s (Op.deleteEntry ts)).history = s.history ∨
        ∃ i, (stepOp s (Op.deleteEntry ts)).history = s.history.eraseIdx i) ∧
    ((stepOp s Op.clearAll).history = []) ∧
    (∀ a b, stepOp s (Op.viewHistory a b) = s) ∧
    (stepOp s Op.exportPage = s) := by
  refine ⟨?_, ?_, ?_, rfl, fun a b => rfl, rfl⟩
  · intro text k call now lang herr
    cases hres : analyze_news k call with
    | okRecord j => rw [hres] at herr; simp [isErrorRes] at herr
    | errorRes m => simp [stepOp, hres]
  · intro text k call now lang j hok
    by_cases hblank : (text.dropWhile isWsC).isEmpty = true
    · exact Or.inl (by simp [stepOp, hblank])
    · by_cases hrend : rendersOk j = true
      · exact Or.inr (by simp [stepOp, hblank, hok, hrend])
      · exact Or.inl (by simp [stepOp, hblank, hok, hrend])
  · intro ts
    exact removeFirstByTs_eq_or_eraseIdx s.history ts

/-- The spec's record invariant (C2): a verdict among Fake/Real/Uncertain and
an integer credibility score between 0 and 100. -/
def recordOK (r : Record) : Bool :=
  (jeq r.verdict (Json.str (chars "Fake")) || jeq r.verdict (Json.str (chars "Real")) ||
      jeq r.verdict (Json.str (chars "Uncertain"))) &&
    (match r.score with
     | Json.num n => decide (0 ≤ n) && decide (n ≤ 100)
     | _ => false)

/-- An operation whose successful reply (if any) yields a compliant record;
non-analysis operations are vacuously compliant. -/
def opCompliant : Op → Prop
  | Op.analyze text k call now lang =>
      ∀ j, analyze_news k call = AnalysisResult.okRecord j →
        recordOK (mkRecord text now lang j) = true
  | _ => True

/-- Session states reachable when the external model honours the reply
contract promised by the prompt. -/
inductive ReachableC : AppState → Prop where
  | init : ReachableC ⟨[]⟩
  | step (s : AppState) (op : Op) : ReachableC s → opCompliant op →
      ReachableC (stepOp s op)

/-- C2 amended: the code checks only that the three keys are present, so the
verdict/score invariant is not enforced; it holds for every stored record
exactly on those sessions in which every successful model reply was compliant. -/
theorem record_invariant_under_compliant_replies (s : AppState) (hs : ReachableC s) :
    ∀ r ∈ s.history, recordOK r = true := by
  induction hs with
  | init => intro r hr; simp at hr
  | step s' op hs' hc ih =>
    intro r hr
    cases op with
    | analyze text k call now lang =>
      cases hres : analyze_news k call with
      | errorRes m =>
        have hst : stepOp s' (Op.analyze text k call now lang) = s' := by
          simp [stepOp, hres]
        rw [hst] at hr
        exact ih r hr
      | okRecord j =>
        by_cases hblank : (text.dropWhile isWsC).isEmpty = true
        · have hst : stepOp s' (Op.analyze text k call now lang) = s' := by
            simp [stepOp, hblank]
          rw [hst] at hr
          exact ih r hr
        · by_cases hrend : rendersOk j = true
          · have hst : (stepOp s' (Op.analyze text k call now lang)).history
                = s'.history ++ [mkRecord text now lang j] := by
              simp [stepOp, hblank, hres, hrend]
            rw [hst] at hr
            rcases List.mem_append.mp hr with h1 | h1
            · exact ih r h1
            · have hr2 : r = mkRecord text now lang j := by simpa using h1
              rw [hr2]
              exact hc j hres
          · have hst : stepOp s' (Op.analyze text k call now lang) = s' := by
              simp [stepOp, hblank, hres, hrend]
            rw [hst] at hr
            exact ih r hr
    | deleteEntry ts =>
      have hsub : (stepOp s' (Op.deleteEntry ts)).history.Sublist s'.history := by
        show (removeFirstByTs s'.history ts).Sublist s'.history
        rcases removeFirstByTs_eq_or_eraseIdx s'.history ts with h1 | ⟨i, h2⟩
        · rw [h1]
        · rw [h2]; exact List.eraseIdx_sublist s'.history i
      exact ih r (hsub.mem hr)
    | clearAll => simp [stepOp] at hr
    | viewHistory a b => exact ih r hr
    | exportPage => exact ih r hr

/-- C2 fails as stated: one reachable session — a single analysis whose model
reply carried verdict "Banana" with the three keys present — stores a record
whose verdict is outside Fake/Real/Uncertain. -/
theorem record_invariant_counterexample :
    ¬ (∀ s, Reachable s → ∀ r ∈ s.history, recordOK r = true) := by
  intro hall
  let reply := chars "\x7b\"verdict\": \"Banana\", \"reason\": \"x\", \"credibility_score\": 50\x7d"
  let op := Op.analyze (chars "some news text") true (Except.ok reply)
    (chars "2025-01-01 00:00:00") (chars "English")
  let r0 := mkRecord (chars "some news text") (chars "2025-01-01 00:00:00")
    (chars "English")
    (Json.obj [(chars "verdict", Json.str (chars "Banana")),
               (chars "reason", Json.str (chars "x")),
               (chars "credibility_score", Json.num 50)])
  have hreach : Reachable (stepOp ⟨[]⟩ op) := Reachable.step _ _ Reachable.init
  have hhist : (stepOp ⟨[]⟩ op).history = [r0] := by rfl
  have hmem : r0 ∈ (stepOp ⟨[]⟩ op).history := by
    rw [hhist]; exact List.mem_singleton.mpr rfl
  have hOK := hall _ hreach r0 hmem
  have hbad : recordOK r0 = false := by rfl
  rw [hOK] at hbad
  exact Bool.noConfusion hbad

theorem isSubstr_nil_left (t : List Char) : isSubstr [] t = true := by
  cases t with
  | nil => rfl
  | cons c rest => simp [isSubstr, List.isPrefixOf]

theorem searchFiltered_mem_iff (h : List Record) (term : List Char) (r : Record) :
    r ∈ searchFiltered h term ↔
      r ∈ h ∧ isSubstr (lowerStr term) (lowerStr r.text) = true := by
  cases term with
  | nil => simp [searchFiltered, List.isEmpty, lowerStr, isSubstr_nil_left]
  | cons c rest => simp [searchFiltered, List.isEmpty, List.mem_filter]

/-- C9 amended: the history search lower-cases both sides and tests the term
against the stored excerpt field only; a record whose excerpt does not contain
the term (case-insensitively) is never returned, even if its full text does.
The term can still match the "..." marker the excerpt appends after character
300, which is what defeats the claim as stated. -/
theorem search_caseins_excerpt_amended (h : List Record) (term : List Char) (r : Record) :
    (r ∈ searchFiltered h term ↔
      r ∈ h ∧ isSubstr (lowerStr term) (lowerStr r.text) = true) ∧
    (isSubstr (lowerStr term) (lowerStr r.text) = false → r ∉ searchFiltered h term) := by
  refine ⟨searchFiltered_mem_iff h term r, ?_⟩
  intro hfalse hmem
  have hmem2 := (searchFiltered_mem_iff h term r).mp hmem
  rw [hmem2.2] at hfalse
  exact Bool.noConfusion hfalse

theorem search_caseins_excerpt_amended_witness :
    ({ text := chars "abc", full_text := chars "abc",
       verdict := Json.str (chars "Real"), reason := Json.str (chars "ok"),
       score := Json.num 70, timestamp := chars "t", language := chars "English",
       model := chars "Gemini 1.5 Flash" } : Record) ∉
      searchFiltered
        [{ text := chars "abc", full_text := chars "abc",
           verdict := Json.str (chars "Real"), reason := Json.str (chars "ok"),
           score := Json.num 70, timestamp := chars "t", language := chars "English",
           model := chars "Gemini 1.5 Flash" }] (chars "zzz") :=
  (search_caseins_excerpt_amended _ (chars "zzz") _).2 (by rfl)

set_option maxRecDepth 40000 in
/-- C9 fails as stated: with search term "...", a record in whose full article
the term occurs only from position 302 on (the first 302 characters contain no
occurrence) is still returned, because the term matches the "..." marker that
the stored excerpt appends after truncation at 300 characters. -/
theorem search_excerpt_counterexample :
    isSubstr (chars "...") ((List.replicate 300 'a' ++ chars "bc...").take 302) = false ∧
    isSubstr (chars "...") (List.replicate 300 'a' ++ chars "bc...") = true ∧
    searchFiltered
      [{ text := excerpt (List.replicate 300 'a' ++ chars "bc..."),
         full_text := List.replicate 300 'a' ++ chars "bc...",
         verdict := Json.str (chars "Real"), reason := Json.str (chars "ok"),
         score := Json.num 80, timestamp := chars "2025-01-01 00:00:00",
         language := chars "English", model := chars "Gemini 1.5 Flash" }]
      (chars "...")
      = [{ text := excerpt (List.replicate 300 'a' ++ chars "bc..."),
           full_text := List.replicate 300 'a' ++ chars "bc...",
           verdict := Json.str (chars "Real"), reason := Json.str (chars "ok"),
           score := Json.num 80, timestamp := chars "2025-01-01 00:00:00",
           language := chars "English", model := chars "Gemini 1.5 Flash" }] := by
  exact ⟨rfl, rfl, rfl⟩

theorem open_mem_of_decomp (t a b c : List Char) (h : t = a ++ '{' :: b ++ '}' :: c) :
    '{' ∈ t := by
  subst h; simp

/-- C1 amended: when no '{' occurs before it, a flat JSON object embedded in
arbitrary surrounding text is extracted exactly, whatever follows; and an input
containing no open brace followed by a close brace yields None, which the
analysis surfaces as the "Invalid response format" error. -/
theorem extract_json_flat_object_amended (pre mid post : List Char) (j : Json)
    (hpre : '{' ∉ pre) (hopen : '{' ∉ mid) (hclose : '}' ∉ mid)
    (hjson : parseJson ('{' :: mid ++ ['}']) = some j) :
    extract_json (pre ++ '{' :: mid ++ '}' :: post) = some ('{' :: mid ++ ['}']) ∧
    ∀ t, (¬ ∃ a b c, t = a ++ '{' :: b ++ '}' :: c) →
      extract_json t = none ∧
      analyze_news true (Except.ok t)
        = AnalysisResult.errorRes (chars "Invalid response format") := by
  refine ⟨extract_json_of_decomp pre mid post hpre hclose, ?_⟩
  intro t hno
  have hx : extract_json t = none := extract_json_none_of_no_pair t hno
  exact ⟨hx, by simp [analyze_news, hx]⟩

theorem extract_json_flat_object_amended_witness :
    extract_json (chars "note: "
        ++ '{' :: chars "\"verdict\": \"Real\", \"reason\": \"ok\", \"credibility_score\": 90"
        ++ '}' :: chars " end")
      = some ('{' :: chars "\"verdict\": \"Real\", \"reason\": \"ok\", \"credibility_score\": 90"
          ++ ['}']) ∧
    extract_json (chars "no json here") = none ∧
    analyze_news true (Except.ok (chars "no json here"))
      = AnalysisResult.errorRes (chars "Invalid response format") := by
  have h := extract_json_flat_object_amended (chars "note: ")
    (chars "\"verdict\": \"Real\", \"reason\": \"ok\", \"credibility_score\": 90")
    (chars " end")
    (Json.obj [(chars "verdict", Json.str (chars "Real")),
               (chars "reason", Json.str (chars "ok")),
               (chars "credibility_score", Json.num 90)])
    (by decide) (by decide) (by decide) (by rfl)
  have hno : ¬ ∃ a b c, chars "no json here" = a ++ '{' :: b ++ '}' :: c := by
    rintro ⟨a, b, c, hd⟩
    exact absurd (open_mem_of_decomp _ a b c hd) (by decide)
  exact ⟨h.1, (h.2 _ hno).1, (h.2 _ hno).2⟩

/-- C1 fails as stated: the input below contains the flat JSON object
`{"verdict": "Fake", ...}` as a substring (decomposition and flatness shown
explicitly, and the object parses), yet the extractor returns "{a}" coming from
the earlier brace pair, not that object. -/
theorem extract_not_the_object_counterexample :
    chars "x\x7ba\x7d\x7b\"verdict\": \"Fake\", \"reason\": \"x\", \"credibility_score\": 10\x7d"
        = chars "x\x7ba\x7d"
          ++ ('{' :: chars "\"verdict\": \"Fake\", \"reason\": \"x\", \"credibility_score\": 10"
              ++ ['}'])
          ++ [] ∧
    '{' ∉ chars "\"verdict\": \"Fake\", \"reason\": \"x\", \"credibility_score\": 10" ∧
    '}' ∉ chars "\"verdict\": \"Fake\", \"reason\": \"x\", \"credibility_score\": 10" ∧
    (parseJson ('{' :: chars "\"verdict\": \"Fake\", \"reason\": \"x\", \"credibility_score\": 10"
        ++ ['}'])).isSome = true ∧
    extract_json
        (chars "x\x7ba\x7d\x7b\"verdict\": \"Fake\", \"reason\": \"x\", \"credibility_score\": 10\x7d")
      = some (chars "\x7ba\x7d") ∧
    chars "\x7ba\x7d"
      ≠ '{' :: chars "\"verdict\": \"Fake\", \"reason\": \"x\", \"credibility_score\": 10"
          ++ ['}'] := by
  exact ⟨by decide, by decide, by decide, by rfl, by rfl, by decide⟩

theorem analyze_failures_are_labeled_errors_witness :
    analyze_news false (Except.ok (chars "\x7b\x7d"))
      = AnalysisResult.errorRes (chars "API key not configured") ∧
    analyze_news true (Except.error (chars "boom"))
      = AnalysisResult.errorRes (chars "Analysis failed: " ++ chars "boom") ∧
    analyze_news true (Except.ok (chars "no json"))
      = AnalysisResult.errorRes (chars "Invalid response format") ∧
    isErrorRes (analyze_news true (Except.ok (chars "\x7boops\x7d"))) = true ∧
    analyze_news true (Except.ok (chars "\x7b\"a\": 1\x7d"))
      = AnalysisResult.errorRes (chars "Invalid response format") ∧
    requiredKeys (Json.obj [(chars "verdict", Json.str (chars "Real")),
                            (chars "reason", Json.str (chars "ok")),
                            (chars "credibility_score", Json.num 90)]) = true := by
  refine ⟨(analyze_failures_are_labeled_errors false (Except.ok (chars "\x7b\x7d"))).1 rfl,
    (analyze_failures_are_labeled_errors true (Except.error (chars "boom"))).2.1
      (chars "boom") rfl rfl,
    (analyze_failures_are_labeled_errors true (Except.ok (chars "no json"))).2.2.1
      (chars "no json") rfl rfl (by rfl),
    (analyze_failures_are_labeled_errors true (Except.ok (chars "\x7boops\x7d"))).2.2.2.1
      (chars "\x7boops\x7d") (chars "\x7boops\x7d") rfl rfl (by rfl) (by rfl),
    (analyze_failures_are_labeled_errors true (Except.ok (chars "\x7b\"a\": 1\x7d"))).2.2.2.2.1
      (chars "\x7b\"a\": 1\x7d") (chars "\x7b\"a\": 1\x7d") (Json.obj [(chars "a", Json.num 1)])
      rfl rfl (by rfl) (by rfl) (by rfl),
    (analyze_failures_are_labeled_errors true
        (Except.ok (chars "\x7b\"verdict\": \"Real\", \"reason\": \"ok\", \"credibility_score\": 90\x7d"))).2.2.2.2.2
      (Json.obj [(chars "verdict", Json.str (chars "Real")),
                 (chars "reason", Json.str (chars "ok")),
                 (chars "credibility_score", Json.num 90)]) (by rfl)⟩

theorem history_mutation_discipline_witness :
    stepOp ⟨[]⟩ (Op.analyze (chars "hi") false (Except.ok (chars "\x7b\x7d"))
        (chars "t") (chars "en")) = ⟨[]⟩ ∧
    ((stepOp ⟨[]⟩ (Op.analyze (chars "hi") true
        (Except.ok (chars "\x7b\"verdict\": \"Real\", \"reason\": \"ok\", \"credibility_score\": 90\x7d"))
        (chars "t") (chars "en"))).history = AppState.history ⟨[]⟩ ∨
      (stepOp ⟨[]⟩ (Op.analyze (chars "hi") true
        (Except.ok (chars "\x7b\"verdict\": \"Real\", \"reason\": \"ok\", \"credibility_score\": 90\x7d"))
        (chars "t") (chars "en"))).history
        = AppState.history ⟨[]⟩ ++ [mkRecord (chars "hi") (chars "t") (chars "en")
            (Json.obj [(chars "verdict", Json.str (chars "Real")),
                       (chars "reason", Json.str (chars "ok")),
                       (chars "credibility_score", Json.num 90)])]) :=
  ⟨(history_mutation_discipline ⟨[]⟩).1 (chars "hi") false (Except.ok (chars "\x7b\x7d"))
      (chars "t") (chars "en") (by rfl),
   (history_mutation_discipline ⟨[]⟩).2.1 (chars "hi") true
      (Except.ok (chars "\x7b\"verdict\": \"Real\", \"reason\": \"ok\", \"credibility_score\": 90\x7d"))
      (chars "t") (chars "en")
      (Json.obj [(chars "verdict", Json.str (chars "Real")),
                 (chars "reason", Json.str (chars "ok")),
                 (chars "credibility_score", Json.num 90)]) (by rfl)⟩

theorem delete_removes_first_timestamp_match_witness :
    (stepOp ⟨[⟨chars "a", chars "a", Json.str (chars "Fake"), Json.str (chars "r"),
               Json.num 10, chars "T", chars "en", chars "m"⟩,
              ⟨chars "b", chars "b", Json.str (chars "Real"), Json.str (chars "s"),
               Json.num 90, chars "T", chars "en", chars "m"⟩]⟩
        (Op.deleteEntry (chars "T"))).history
      = [] ++ [] ++ (⟨chars "b", chars "b", Json.str (chars "Real"), Json.str (chars "s"),
          Json.num 90, chars "T", chars "en", chars "m"⟩ : Record) :: [] :=
  (delete_removes_first_timestamp_match _ (chars "T")).2.2 []
    ⟨chars "a", chars "a", Json.str (chars "Fake"), Json.str (chars "r"),
     Json.num 10, chars "T", chars "en", chars "m"⟩ []
    ⟨chars "b", chars "b", Json.str (chars "Real"), Json.str (chars "s"),
     Json.num 90, chars "T", chars "en", chars "m"⟩ []
    rfl (fun q hq => absurd hq (List.not_mem_nil q)) rfl rfl

theorem record_invariant_under_compliant_replies_witness :
    recordOK (mkRecord (chars "hello") (chars "t") (chars "en")
      (Json.obj [(chars "verdict", Json.str (chars "Real")),
                 (chars "reason", Json.str (chars "ok")),
                 (chars "credibility_score", Json.num 90)])) = true := by
  have hcomp : opCompliant (Op.analyze (chars "hello") true
      (Except.ok (chars "\x7b\"verdict\": \"Real\", \"reason\": \"ok\", \"credibility_score\": 90\x7d"))
      (chars "t") (chars "en")) := by
    intro j hj
    have hj0 : analyze_news true
        (Except.ok (chars "\x7b\"verdict\": \"Real\", \"reason\": \"ok\", \"credibility_score\": 90\x7d"))
        = AnalysisResult.okRecord
            (Json.obj [(chars "verdict", Json.str (chars "Real")),
                       (chars "reason", Json.str (chars "ok")),
                       (chars "credibility_score", Json.num 90)]) := rfl
    rw [hj0] at hj
    cases hj
    rfl
  have hre : ReachableC (stepOp ⟨[]⟩ (Op.analyze (chars "hello") true
      (Except.ok (chars "\x7b\"verdict\": \"Real\", \"reason\": \"ok\", \"credibility_score\": 90\x7d"))
      (chars "t") (chars "en"))) :=
    ReachableC.step _ _ ReachableC.init hcomp
  exact record_invariant_under_compliant_replies _ hre _ (by
    show _ ∈ (stepOp ⟨[]⟩ _).history
    rw [show (stepOp ⟨[]⟩ (Op.analyze (chars "hello") true
      (Except.ok (chars "\x7b\"verdict\": \"Real\", \"reason\": \"ok\", \"credibility_score\": 90\x7d"))
      (chars "t") (chars "en"))).history
        = [mkRecord (chars "hello") (chars "t") (chars "en")
            (Json.obj [(chars "verdict", Json.str (chars "Real")),
                       (chars "reason", Json.str (chars "ok")),
                       (chars "credibility_score", Json.num 90)])] from rfl]
    exact List.mem_singleton.mpr rfl)

theorem skipWs_cons_not_ws (c : Char) (t : List Char) (h : isWsC c = false) :
    skipWs (c :: t) = c :: t := by
  simp [skipWs, List.dropWhile, h]

theorem skipWs_append_ws (w t : List Char) (hw : ∀ c ∈ w, isWsC c = true) :
    skipWs (w ++ t) = skipWs t :=
  dropWhile_append_of_all w t hw

theorem nlIndent_all_ws (n : Nat) : ∀ c ∈ nlIndent n, isWsC c = true := by
  intro c hc
  rcases List.mem_cons.mp hc with h | h
  · subst h; rfl
  · rw [List.eq_of_mem_replicate h]; rfl

theorem skipWs_skipWs (t : List Char) : skipWs (skipWs t) = skipWs t := by
  induction t with
  | nil => rfl
  | cons c r ih =>
    by_cases h : isWsC c = true
    · have h1 : skipWs (c :: r) = skipWs r := by simp [skipWs, List.dropWhile, h]
      rw [h1, ih]
    · have h' : isWsC c = false := by simpa using h
      simp [skipWs, List.dropWhile, h']

theorem parseValue_skipWs (fuel : Nat) (t : List Char) :
    parseValue fuel (skipWs t) = parseValue fuel t := by
  cases fuel with
  | zero => rfl
  | succ f => simp only [parseValue, skipWs_skipWs]

theorem parseItems_skipWs (fuel : Nat) (t : List Char) :
    parseItems fuel (skipWs t) = parseItems fuel t := by
  cases fuel with
  | zero => rfl
  | succ f => simp only [parseItems, parseValue_skipWs]

/-- A digit character is none of the reader's structural characters and is not
whitespace. -/
theorem isDigitC_ne (c : Char) (h : isDigitC c = true) :
    c ≠ '{' ∧ c ≠ '[' ∧ c ≠ '"' ∧ c ≠ '-' ∧ c ≠ '}' ∧ c ≠ ']' ∧ c ≠ ',' ∧ c ≠ ':' ∧
      isWsC c = false := by
  simp only [isDigitC, Bool.and_eq_true, decide_eq_true_eq] at h
  refine ⟨?_, ?_, ?_, ?_, ?_, ?_, ?_, ?_, ?_⟩
  · intro hc; subst hc; revert h; decide
  · intro hc; subst hc; revert h; decide
  · intro hc; subst hc; revert h; decide
  · intro hc; subst hc; revert h; decide
  · intro hc; subst hc; revert h; decide
  · intro hc; subst hc; revert h; decide
  · intro hc; subst hc; revert h; decide
  · intro hc; subst hc; revert h; decide
  · simp only [isWsC, Bool.or_eq_false_iff, decide_eq_false_iff_not]
    refine ⟨⟨⟨?_, ?_⟩, ?_⟩, ?_⟩ <;> (intro hc; subst hc; revert h; decide)

theorem isDigitC_digitCh (d : Nat) : isDigitC (digitCh d) = true := by
  rcases d with _|_|_|_|_|_|_|_|_|d <;> rfl

theorem digitVal_digitCh (d : Nat) (h : d < 10) : digitVal (digitCh d) = d := by
  rcases d with _|_|_|_|_|_|_|_|_|_|d
  · rfl
  · rfl
  · rfl
  · rfl
  · rfl
  · rfl
  · rfl
  · rfl
  · rfl
  · rfl
  · exact absurd h (by omega)

theorem serNat_all_digits (n : Nat) : ∀ c ∈ serNat n, isDigitC c = true := by
  intro c hc
  unfold serNat at hc
  split at hc
  · rw [List.mem_singleton.mp hc]; rfl
  · obtain ⟨d, _, rfl⟩ := List.mem_map.mp hc
    exact isDigitC_digitCh d

theorem serNat_ne_nil (n : Nat) : serNat n ≠ [] := by
  unfold serNat
  split
  · simp
  · rename_i hn
    simp [Nat.digits_ne_nil_iff_ne_zero.mpr hn]

theorem takeWhile_append_of_all {p : Char → Bool} (a r : List Char)
    (ha : ∀ c ∈ a, p c = true) (hr : ∀ c, r.head? = some c → p c = false) :
    (a ++ r).takeWhile p = a ∧ (a ++ r).dropWhile p = r := by
  induction a with
  | nil =>
    cases r with
    | nil => exact ⟨rfl, rfl⟩
    | cons c r' =>
      have hc := hr c rfl
      simp [List.takeWhile, List.dropWhile, hc]
  | cons c a' ih =>
    have hc := ha c (List.mem_cons_self c a')
    obtain ⟨h1, h2⟩ := ih (fun d hd => ha d (List.mem_cons_of_mem c hd))
    simp [List.takeWhile, List.dropWhile, hc, h1, h2]

theorem foldl_digitCh_reverse (ds : List Nat) (acc : Nat) (hds : ∀ d ∈ ds, d < 10) :
    ((ds.reverse).map digitCh).foldl (fun a c => 10 * a + digitVal c) acc
      = acc * 10 ^ ds.length + Nat.ofDigits 10 ds := by
  induction ds generalizing acc with
  | nil => simp [Nat.ofDigits]
  | cons d ds' ih =>
    have hd := hds d (List.mem_cons_self d ds')
    simp only [List.reverse_cons, List.map_append, List.foldl_append]
    rw [ih acc (fun e he => hds e (List.mem_cons_of_mem d he))]
    simp only [List.map_cons, List.map_nil, List.foldl_cons, List.foldl_nil,
      digitVal_digitCh d hd, Nat.ofDigits_cons, List.length_cons]
    ring

theorem parseDigits_serNat (n : Nat) (r : List Char)
    (hr : ∀ c, r.head? = some c → isDigitC c = false) :
    parseDigits (serNat n ++ r) = some (n, r) := by
  obtain ⟨h1, h2⟩ := takeWhile_append_of_all (serNat n) r (serNat_all_digits n) hr
  have hne : (serNat n).isEmpty = false := by
    cases hs : serNat n with
    | nil => exact absurd hs (serNat_ne_nil n)
    | cons c t => rfl
  unfold parseDigits
  rw [h1, h2, hne]
  simp only [Bool.false_eq_true, if_false, Option.some.injEq, Prod.mk.injEq, and_true]
  unfold serNat
  split
  · rename_i hn; subst hn; rfl
  · rename_i hn
    have hlt : ∀ d ∈ Nat.digits 10 n, d < 10 := fun d hd =>
      Nat.digits_lt_base (by omega) hd
    rw [foldl_digitCh_reverse (Nat.digits 10 n) 0 hlt]
    simp [Nat.ofDigits_digits]

/-- Step equation for the reader on a non-whitespace head character. -/
theorem parseValue_cons (fuel : Nat) (c : Char) (r : List Char) (hws : isWsC c = false) :
    parseValue (fuel + 1) (c :: r)
      = (if c = '{' then parseObjBody fuel (skipWs r)
         else if c = '[' then parseArrBody fuel (skipWs r)
         else if c = '"' then (parseStringBody r).map (fun p => (Json.str p.1, p.2))
         else if c = '-' then (parseDigits r).map (fun p => (Json.num (-(p.1 : Int)), p.2))
         else if isDigitC c then
           (parseDigits (c :: r)).map (fun p => (Json.num (p.1 : Int), p.2))
         else
           match c :: r with
           | 'n' :: 'u' :: 'l' :: 'l' :: r2 => some (Json.null, r2)
           | 't' :: 'r' :: 'u' :: 'e' :: r2 => some (Json.bool true, r2)
           | 'f' :: 'a' :: 'l' :: 's' :: 'e' :: r2 => some (Json.bool false, r2)
           | _ => none) := by
  rw [parseValue, skipWs_cons_not_ws c r hws]

/-- Step equation for the object interior on a cons. -/
theorem parseObjBody_cons (fuel : Nat) (c : Char) (r : List Char) :
    parseObjBody (fuel + 1) (c :: r)
      = if c = '}' then some (Json.obj [], r)
        else (parseMembers fuel (c :: r)).map (fun p => (Json.obj p.1, p.2)) := by
  rw [parseObjBody]

/-- Step equation for the member list on a cons. -/
theorem parseMembers_cons (fuel : Nat) (c : Char) (r : List Char) :
    parseMembers (fuel + 1) (c :: r)
      = (if c = '"' then
          match parseStringBody r with
          | none => none
          | some (k, r1) =>
            match skipWs r1 with
            | [] => none
            | c2 :: r2 =>
              if c2 = ':' then
                match parseValue fuel r2 with
                | none => none
                | some (v, r3) =>
                  match skipWs r3 with
                  | [] => none
                  | c3 :: r4 =>
                    if c3 = ',' then
                      match parseMembers fuel (skipWs r4) with
                      | none => none
                      | some (ms, r5) => some ((k, v) :: ms, r5)
                    else if c3 = '}' then some ([(k, v)], r4)
                    else none
              else none
         else none) := by
  rw [parseMembers]

/-- Step equation for the array interior on a cons. -/
theorem parseArrBody_cons (fuel : Nat) (c : Char) (r : List Char) :
    parseArrBody (fuel + 1) (c :: r)
      = if c = ']' then some (Json.arr [], r)
        else (parseItems fuel (c :: r)).map (fun p => (Json.arr p.1, p.2)) := by
  rw [parseArrBody]

/-- Step equation for the item list. -/
theorem parseItems_succ (fuel : Nat) (t : List Char) :
    parseItems (fuel + 1) t
      = (match parseValue fuel t with
         | none => none
         | some (v, r1) =>
           match skipWs r1 with
           | [] => none
           | c :: r2 =>
             if c = ',' then
               match parseItems fuel r2 with
               | none => none
               | some (vs, r3) => some (v :: vs, r3)
             else if c = ']' then some ([v], r2)
             else none) := by
  rw [parseItems]

/-- Step equation for the string-body reader on a cons. -/
theorem parseStringBody_cons (c : Char) (rest : List Char) :
    parseStringBody (c :: rest)
      = (if c = '\\' then
          match rest with
          | [] => none
          | e :: rest2 =>
            match unescape e with
            | some d => (parseStringBody rest2).map (fun p => (d :: p.1, p.2))
            | none => none
         else if c = '"' then some ([], rest)
         else (parseStringBody rest).map (fun p => (c :: p.1, p.2))) := by
  rw [parseStringBody.eq_def]

/-- Step equation for the string-body reader on an escape pair. -/
theorem parseStringBody_esc (e : Char) (rest2 : List Char) :
    parseStringBody ('\\' :: e :: rest2)
      = (match unescape e with
         | some d => (parseStringBody rest2).map (fun p => (d :: p.1, p.2))
         | none => none) := by
  rw [parseStringBody.eq_def]
  exact rfl

theorem parseStringBody_escStr (s r : List Char) :
    parseStringBody (escStr s ++ '"' :: r) = some (s, r) := by
  induction s with
  | nil =>
    show parseStringBody ('"' :: r) = some ([], r)
    rw [parseStringBody_cons, if_neg (by decide), if_pos rfl]
  | cons c cs ih =>
    by_cases hc : (c = '"' || c = '\\') = true
    · have hesc : escStr (c :: cs) = '\\' :: c :: escStr cs := by
        simp [escStr, hc]
      rw [hesc]
      show parseStringBody ('\\' :: c :: (escStr cs ++ '"' :: r)) = _
      rw [parseStringBody_esc]
      rcases Bool.or_eq_true_iff.mp hc with h | h
      · rw [decide_eq_true_eq.mp h]
        rw [show unescape '"' = some '"' from rfl]
        simp [ih]
      · rw [decide_eq_true_eq.mp h]
        rw [show unescape '\\' = some '\\' from rfl]
        simp [ih]
    · have h1 : ¬ c = '"' := by
        intro h; rw [h] at hc; exact hc (by decide)
      have h2 : ¬ c = '\\' := by
        intro h; rw [h] at hc; exact hc (by decide)
      have hesc : escStr (c :: cs) = c :: escStr cs := by
        simp [escStr, h1, h2]
      rw [hesc]
      show parseStringBody (c :: (escStr cs ++ '"' :: r)) = _
      rw [parseStringBody_cons, if_neg h2, if_neg h1, ih]
      rfl

/-- Every serialized value starts with a character that is neither a closing
bracket nor whitespace (needed to locate it after the indent). -/
theorem serVal_head_spec (lvl : Nat) (v : Json) :
    ∃ c t, serVal lvl v = c :: t ∧ c ≠ '\x7d' ∧ c ≠ ']' ∧ isWsC c = false := by
  cases v with
  | null =>
    refine ⟨'n', chars "ull", ?_, by decide, by decide, by decide⟩
    simp only [serVal]; rfl
  | bool b =>
    cases b with
    | true =>
      refine ⟨'t', chars "rue", ?_, by decide, by decide, by decide⟩
      simp only [serVal]; rfl
    | false =>
      refine ⟨'f', chars "alse", ?_, by decide, by decide, by decide⟩
      simp only [serVal]; rfl
  | num i =>
    by_cases hi : i < 0
    · refine ⟨'-', serNat i.natAbs, ?_, by decide, by decide, by decide⟩
      simp [serVal, serInt, hi]
    · cases hs : serNat i.natAbs with
      | nil => exact absurd hs (serNat_ne_nil i.natAbs)
      | cons c t =>
        have hd : isDigitC c = true :=
          serNat_all_digits i.natAbs c (by rw [hs]; exact List.mem_cons_self c t)
        obtain ⟨_, _, _, _, h5, h6, _, _, h9⟩ := isDigitC_ne c hd
        refine ⟨c, t, ?_, h5, h6, h9⟩
        simp [serVal, serInt, hi, hs]
  | str s =>
    refine ⟨'"', escStr s ++ ['"'], ?_, by decide, by decide, by decide⟩
    simp only [serVal]
  | arr items =>
    cases items with
    | nil =>
      refine ⟨'[', [']'], ?_, by decide, by decide, by decide⟩
      simp only [serVal]; rfl
    | cons v vs =>
      refine ⟨'[', serItemsD lvl v vs ++ nlIndent (2 * lvl) ++ [']'],
        ?_, by decide, by decide, by decide⟩
      simp only [serVal]
  | obj members =>
    cases members with
    | nil =>
      refine ⟨'\x7b', ['\x7d'], ?_, by decide, by decide, by decide⟩
      simp only [serVal]; rfl
    | cons m ms =>
      obtain ⟨k, v⟩ := m
      refine ⟨'\x7b', serMembersD lvl k v ms ++ nlIndent (2 * lvl) ++ ['\x7d'],
        ?_, by decide, by decide, by decide⟩
      simp only [serVal]

theorem parseValue_serInt (fuel : Nat) (i : Int) (r : List Char)
    (hr : ∀ c, r.head? = some c → isDigitC c = false) :
    parseValue (fuel + 1) (serInt i ++ r) = some (Json.num i, r) := by
  by_cases hi : i < 0
  · have hser : serInt i = '-' :: serNat i.natAbs := by simp [serInt, hi]
    rw [hser]
    show parseValue (fuel + 1) ('-' :: (serNat i.natAbs ++ r)) = _
    rw [parseValue_cons fuel '-' _ (by decide)]
    rw [if_neg (by decide), if_neg (by decide), if_neg (by decide), if_pos rfl]
    rw [parseDigits_serNat i.natAbs r hr]
    simp only [Option.map_some', Option.some.injEq, Prod.mk.injEq, Json.num.injEq, and_true]
    omega
  · have hser : serInt i = serNat i.natAbs := by simp [serInt, hi]
    rw [hser]
    cases hs : serNat i.natAbs with
    | nil => exact absurd hs (serNat_ne_nil i.natAbs)
    | cons c t =>
      have hd : isDigitC c = true :=
        serNat_all_digits i.natAbs c (by rw [hs]; exact List.mem_cons_self c t)
      obtain ⟨h1, h2, h3, h4, _, _, _, _, h9⟩ := isDigitC_ne c hd
      show parseValue (fuel + 1) (c :: (t ++ r)) = _
      rw [parseValue_cons fuel c _ h9]
      rw [if_neg h1, if_neg h2, if_neg h3, if_neg h4, if_pos hd]
      rw [show c :: (t ++ r) = (c :: t) ++ r from rfl, ← hs, parseDigits_serNat i.natAbs r hr]
      simp only [Option.map_some', Option.some.injEq, Prod.mk.injEq, Json.num.injEq, and_true]
      omega

mutual

/-- Fuel sufficient for the reader on the serialization of a value. -/
def jfuel : Json → Nat
  | .null => 1
  | .bool _ => 1
  | .num _ => 1
  | .str _ => 1
  | .arr [] => 2
  | .arr (v :: vs) => 2 + jfuelItems v vs
  | .obj [] => 2
  | .obj ((_, v) :: ms) => 2 + jfuelMembers v ms
termination_by j => sizeOf j

/-- Fuel for a nonempty serialized item list. -/
def jfuelItems (v : Json) : List Json → Nat
  | [] => 1 + jfuel v
  | w :: ws => 1 + max (jfuel v) (jfuelItems w ws)
termination_by vs => sizeOf v + sizeOf vs

/-- Fuel for a nonempty serialized member list. -/
def jfuelMembers (v : Json) : List (List Char × Json) → Nat
  | [] => 1 + jfuel v
  | (_, w) :: ms => 1 + max (jfuel v) (jfuelMembers w ms)
termination_by ms => sizeOf v + sizeOf ms

end

theorem jfuel_pos (v : Json) : 1 ≤ jfuel v := by
  cases v with
  | null => simp [jfuel]
  | bool b => simp [jfuel]
  | num i => simp [jfuel]
  | str s => simp [jfuel]
  | arr items =>
    cases items with
    | nil => simp [jfuel]
    | cons v vs => simp [jfuel]; omega
  | obj members =>
    cases members with
    | nil => simp [jfuel]
    | cons m ms => obtain ⟨k, v⟩ := m; simp [jfuel]; omega

theorem jfuelItems_ge (v : Json) (vs : List Json) :
    1 + jfuel v ≤ jfuelItems v vs := by
  cases vs with
  | nil => simp [jfuelItems]
  | cons w ws =>
    simp only [jfuelItems]
    omega

theorem jfuelMembers_ge (v : Json) (ms : List (List Char × Json)) :
    1 + jfuel v ≤ jfuelMembers v ms := by
  cases ms with
  | nil => simp [jfuelMembers]
  | cons m ms' =>
    obtain ⟨l, w⟩ := m
    simp only [jfuelMembers]
    omega

/-- Tail of a serialized item list after the first item. -/
def serTailItems (lvl : Nat) : List Json → List Char
  | [] => []
  | w :: ws => ',' :: serItemsD lvl w ws

/-- Tail of a serialized member list after the first member. -/
def serTailMembers (lvl : Nat) : List (List Char × Json) → List Char
  | [] => []
  | (l, w) :: ms => ',' :: serMembersD lvl l w ms

theorem serItemsD_decomp (lvl : Nat) (v : Json) (vs : List Json) :
    serItemsD lvl v vs
      = nlIndent (2 * (lvl + 1)) ++ (serVal (lvl + 1) v ++ serTailItems lvl vs) := by
  cases vs with
  | nil => simp [serItemsD, serTailItems]
  | cons w ws => simp [serItemsD, serTailItems]

theorem serMembersD_decomp (lvl : Nat) (k : List Char) (v : Json)
    (ms : List (List Char × Json)) :
    serMembersD lvl k v ms
      = nlIndent (2 * (lvl + 1)) ++ ('"' :: (escStr k
          ++ ('"' :: ':' :: ' ' :: (serVal (lvl + 1) v ++ serTailMembers lvl ms)))) := by
  cases ms with
  | nil => simp [serMembersD, serTailMembers]
  | cons m ms' => obtain ⟨l, w⟩ := m; simp [serMembersD, serTailMembers]

theorem parseValue_ws_prefix (fuel : Nat) (w t : List Char)
    (hw : ∀ c ∈ w, isWsC c = true) :
    parseValue fuel (w ++ t) = parseValue fuel t := by
  cases fuel with
  | zero => simp [parseValue]
  | succ f => rw [parseValue, parseValue, skipWs_append_ws w t hw]

theorem parseItems_ws_prefix (fuel : Nat) (w t : List Char)
    (hw : ∀ c ∈ w, isWsC c = true) :
    parseItems fuel (w ++ t) = parseItems fuel t := by
  cases fuel with
  | zero => simp [parseItems]
  | succ f => rw [parseItems, parseItems, parseValue_ws_prefix f w t hw]

theorem serTailItems_head (lvl : Nat) (vs : List Json) (n : Nat) (X : List Char) :
    ∀ c, (serTailItems lvl vs ++ (nlIndent n ++ X)).head? = some c → isDigitC c = false := by
  intro c hc
  cases vs with
  | nil =>
    simp [serTailItems, nlIndent] at hc
    subst hc
    rfl
  | cons w ws =>
    simp [serTailItems] at hc
    subst hc
    rfl

theorem serTailMembers_head (lvl : Nat) (ms : List (List Char × Json)) (n : Nat)
    (X : List Char) :
    ∀ c, (serTailMembers lvl ms ++ (nlIndent n ++ X)).head? = some c →
      isDigitC c = false := by
  intro c hc
  cases ms with
  | nil =>
    simp [serTailMembers, nlIndent] at hc
    subst hc
    rfl
  | cons m ms' =>
    obtain ⟨l, w⟩ := m
    simp [serTailMembers] at hc
    subst hc
    rfl

/-- Completeness of the reader on the printer's output: with enough fuel, a
serialized value parses back to itself, leaving exactly the trailing input. -/
theorem parse_ser_complete : ∀ fuel : Nat,
    (∀ (lvl : Nat) (v : Json) (r : List Char), jfuel v ≤ fuel →
      (∀ c, r.head? = some c → isDigitC c = false) →
      parseValue fuel (serVal lvl v ++ r) = some (v, r)) ∧
    (∀ (lvl : Nat) (k : List Char) (v : Json) (ms : List (List Char × Json))
        (r : List Char), jfuelMembers v ms ≤ fuel →
      parseMembers fuel
          (skipWs (serMembersD lvl k v ms ++ (nlIndent (2 * lvl) ++ '}' :: r)))
        = some ((k, v) :: ms, r)) ∧
    (∀ (lvl : Nat) (v : Json) (vs : List Json) (r : List Char), jfuelItems v vs ≤ fuel →
      parseItems fuel (serItemsD lvl v vs ++ (nlIndent (2 * lvl) ++ ']' :: r))
        = some (v :: vs, r)) := by
  intro fuel
  induction fuel using Nat.strong_induction_on with
  | _ fuel ih =>
  refine ⟨?_, ?_, ?_⟩
  · -- values
    intro lvl v r hfuel hr
    have hpos := jfuel_pos v
    obtain ⟨f, rfl⟩ : ∃ f, fuel = f + 1 := ⟨fuel - 1, by omega⟩
    cases v with
    | null =>
      rw [show serVal lvl Json.null ++ r = 'n' :: ('u' :: 'l' :: 'l' :: r) from by
        simp only [serVal]; rfl]
      rw [parseValue_cons f 'n' _ (by decide), if_neg (by decide), if_neg (by decide),
        if_neg (by decide), if_neg (by decide), if_neg (by decide)]
      exact rfl
    | bool b =>
      cases b with
      | true =>
        rw [show serVal lvl (Json.bool true) ++ r = 't' :: ('r' :: 'u' :: 'e' :: r) from by
          simp only [serVal]; rfl]
        rw [parseValue_cons f 't' _ (by decide), if_neg (by decide), if_neg (by decide),
          if_neg (by decide), if_neg (by decide), if_neg (by decide)]
        exact rfl
      | false =>
        rw [show serVal lvl (Json.bool false) ++ r
            = 'f' :: ('a' :: 'l' :: 's' :: 'e' :: r) from by
          simp only [serVal]; rfl]
        rw [parseValue_cons f 'f' _ (by decide), if_neg (by decide), if_neg (by decide),
          if_neg (by decide), if_neg (by decide), if_neg (by decide)]
        exact rfl
    | num i =>
      rw [show serVal lvl (Json.num i) = serInt i from by simp only [serVal]]
      exact parseValue_serInt f i r hr
    | str s =>
      rw [show serVal lvl (Json.str s) ++ r = '"' :: (escStr s ++ '"' :: r) from by
        simp only [serVal]; simp]
      rw [parseValue_cons f '"' _ (by decide), if_neg (by decide), if_neg (by decide),
        if_pos rfl, parseStringBody_escStr s r]
      rfl
    | arr items =>
      cases items with
      | nil =>
        simp only [jfuel] at hfuel
        obtain ⟨f2, rfl⟩ : ∃ f2, f = f2 + 1 := ⟨f - 1, by omega⟩
        rw [show serVal lvl (Json.arr []) ++ r = '[' :: (']' :: r) from by
          simp only [serVal]; rfl]
        rw [parseValue_cons (f2 + 1) '[' _ (by decide), if_neg (by decide), if_pos rfl,
          skipWs_cons_not_ws ']' r (by decide), parseArrBody_cons f2 ']' r, if_pos rfl]
      | cons v0 vs =>
        simp only [jfuel] at hfuel
        obtain ⟨f2, rfl⟩ : ∃ f2, f = f2 + 1 := ⟨f - 1, by omega⟩
        rw [show serVal lvl (Json.arr (v0 :: vs)) ++ r
            = '[' :: (serItemsD lvl v0 vs ++ (nlIndent (2 * lvl) ++ ']' :: r)) from by
          simp only [serVal]; simp]
        rw [parseValue_cons (f2 + 1) '[' _ (by decide), if_neg (by decide), if_pos rfl]
        obtain ⟨c0, t0, hs0, hne1, hne2, hnws⟩ := serVal_head_spec (lvl + 1) v0
        have hskip : skipWs (serItemsD lvl v0 vs ++ (nlIndent (2 * lvl) ++ ']' :: r))
            = c0 :: (t0 ++ (serTailItems lvl vs ++ (nlIndent (2 * lvl) ++ ']' :: r))) := by
          rw [serItemsD_decomp, List.append_assoc,
            skipWs_append_ws _ _ (nlIndent_all_ws _), hs0]
          rw [show ((c0 :: t0) ++ serTailItems lvl vs) ++ (nlIndent (2 * lvl) ++ ']' :: r)
              = c0 :: (t0 ++ (serTailItems lvl vs ++ (nlIndent (2 * lvl) ++ ']' :: r)))
            from by simp]
          exact skipWs_cons_not_ws c0 _ hnws
        rw [hskip, parseArrBody_cons f2 c0 _, if_neg hne2]
        have hI : parseItems f2
            (c0 :: (t0 ++ (serTailItems lvl vs ++ (nlIndent (2 * lvl) ++ ']' :: r))))
            = some (v0 :: vs, r) := by
          have h3 := (ih f2 (by omega)).2.2 lvl v0 vs r (by omega)
          rw [serItemsD_decomp, List.append_assoc,
            parseItems_ws_prefix _ _ _ (nlIndent_all_ws _), hs0] at h3
          rw [show ((c0 :: t0) ++ serTailItems lvl vs) ++ (nlIndent (2 * lvl) ++ ']' :: r)
              = c0 :: (t0 ++ (serTailItems lvl vs ++ (nlIndent (2 * lvl) ++ ']' :: r)))
            from by simp] at h3
          exact h3
        rw [hI]
        rfl
    | obj members =>
      cases members with
      | nil =>
        simp only [jfuel] at hfuel
        obtain ⟨f2, rfl⟩ : ∃ f2, f = f2 + 1 := ⟨f - 1, by omega⟩
        rw [show serVal lvl (Json.obj []) ++ r = '{' :: ('}' :: r) from by
          simp only [serVal]; rfl]
        rw [parseValue_cons (f2 + 1) '{' _ (by decide), if_pos rfl,
          skipWs_cons_not_ws '}' r (by decide), parseObjBody_cons f2 '}' r, if_pos rfl]
      | cons m ms =>
        obtain ⟨k, v0⟩ := m
        simp only [jfuel] at hfuel
        obtain ⟨f2, rfl⟩ : ∃ f2, f = f2 + 1 := ⟨f - 1, by omega⟩
        rw [show serVal lvl (Json.obj ((k, v0) :: ms)) ++ r
            = '{' :: (serMembersD lvl k v0 ms ++ (nlIndent (2 * lvl) ++ '}' :: r)) from by
          simp only [serVal]; simp]
        rw [parseValue_cons (f2 + 1) '{' _ (by decide), if_pos rfl]
        have hskip : skipWs (serMembersD lvl k v0 ms ++ (nlIndent (2 * lvl) ++ '}' :: r))
            = '"' :: (escStr k ++ '"' :: ':' :: ' ' :: (serVal (lvl + 1) v0
                ++ (serTailMembers lvl ms ++ (nlIndent (2 * lvl) ++ '}' :: r)))) := by
          rw [serMembersD_decomp, List.append_assoc,
            skipWs_append_ws _ _ (nlIndent_all_ws _)]
          rw [show ('"' :: (escStr k
                ++ ('"' :: ':' :: ' ' :: (serVal (lvl + 1) v0 ++ serTailMembers lvl ms))))
                ++ (nlIndent (2 * lvl) ++ '}' :: r)
              = '"' :: (escStr k ++ '"' :: ':' :: ' ' :: (serVal (lvl + 1) v0
                  ++ (serTailMembers lvl ms ++ (nlIndent (2 * lvl) ++ '}' :: r))))
            from by simp]
          exact skipWs_cons_not_ws '"' _ (by decide)
        have hM := (ih f2 (by omega)).2.1 lvl k v0 ms r (by omega)
        rw [hskip] at hM ⊢
        rw [parseObjBody_cons f2 '"' _, if_neg (by decide), hM]
        rfl
  · -- members
    intro lvl k v ms r hfuel
    have hge := jfuelMembers_ge v ms
    have hvpos := jfuel_pos v
    obtain ⟨f, rfl⟩ : ∃ f, fuel = f + 1 := ⟨fuel - 1, by omega⟩
    have hskip : skipWs (serMembersD lvl k v ms ++ (nlIndent (2 * lvl) ++ '}' :: r))
        = '"' :: (escStr k ++ '"' :: ':' :: ' ' :: (serVal (lvl + 1) v
            ++ (serTailMembers lvl ms ++ (nlIndent (2 * lvl) ++ '}' :: r)))) := by
      rw [serMembersD_decomp, List.append_assoc,
        skipWs_append_ws _ _ (nlIndent_all_ws _)]
      rw [show ('"' :: (escStr k
            ++ ('"' :: ':' :: ' ' :: (serVal (lvl + 1) v ++ serTailMembers lvl ms))))
            ++ (nlIndent (2 * lvl) ++ '}' :: r)
          = '"' :: (escStr k ++ '"' :: ':' :: ' ' :: (serVal (lvl + 1) v
              ++ (serTailMembers lvl ms ++ (nlIndent (2 * lvl) ++ '}' :: r))))
        from by simp]
      exact skipWs_cons_not_ws '"' _ (by decide)
    rw [hskip, parseMembers_cons f '"' _, if_pos rfl]
    rw [show escStr k ++ '"' :: ':' :: ' ' :: (serVal (lvl + 1) v
          ++ (serTailMembers lvl ms ++ (nlIndent (2 * lvl) ++ '}' :: r)))
        = escStr k ++ '"' :: (':' :: ' ' :: (serVal (lvl + 1) v
            ++ (serTailMembers lvl ms ++ (nlIndent (2 * lvl) ++ '}' :: r)))) from rfl]
    rw [parseStringBody_escStr k _]
    have h2 : skipWs (':' :: ' ' :: (serVal (lvl + 1) v
          ++ (serTailMembers lvl ms ++ (nlIndent (2 * lvl) ++ '}' :: r))))
        = ':' :: (' ' :: (serVal (lvl + 1) v
            ++ (serTailMembers lvl ms ++ (nlIndent (2 * lvl) ++ '}' :: r)))) :=
      skipWs_cons_not_ws ':' _ (by decide)
    have hws1 : ∀ c ∈ [' '], isWsC c = true := by
      intro c hc
      rw [List.mem_singleton.mp hc]
      rfl
    have hv : parseValue f (' ' :: (serVal (lvl + 1) v
          ++ (serTailMembers lvl ms ++ (nlIndent (2 * lvl) ++ '}' :: r))))
        = some (v, serTailMembers lvl ms ++ (nlIndent (2 * lvl) ++ '}' :: r)) := by
      rw [show (' ' :: (serVal (lvl + 1) v
            ++ (serTailMembers lvl ms ++ (nlIndent (2 * lvl) ++ '}' :: r))))
          = [' '] ++ (serVal (lvl + 1) v
            ++ (serTailMembers lvl ms ++ (nlIndent (2 * lvl) ++ '}' :: r))) from rfl,
        parseValue_ws_prefix f _ _ hws1]
      exact (ih f (by omega)).1 (lvl + 1) v _ (by omega)
        (serTailMembers_head lvl ms (2 * lvl) ('}' :: r))
    cases ms with
    | nil =>
      have h3 : skipWs (serTailMembers lvl ([] : List (List Char × Json))
            ++ (nlIndent (2 * lvl) ++ '}' :: r)) = '}' :: r := by
        simp only [serTailMembers, List.nil_append]
        rw [skipWs_append_ws _ _ (nlIndent_all_ws _), skipWs_cons_not_ws '}' r (by decide)]
      simp [h2, hv, h3]
    | cons m2 ms' =>
      obtain ⟨l, w⟩ := m2
      simp only [jfuelMembers] at hfuel
      have h3 : skipWs (serTailMembers lvl ((l, w) :: ms')
            ++ (nlIndent (2 * lvl) ++ '}' :: r))
          = ',' :: (serMembersD lvl l w ms' ++ (nlIndent (2 * lvl) ++ '}' :: r)) := by
        simp only [serTailMembers, List.cons_append]
        exact skipWs_cons_not_ws ',' _ (by decide)
      have hrec := (ih f (by omega)).2.1 lvl l w ms' r (by omega)
      simp [h2, hv, h3, hrec]
  · -- items
    intro lvl v vs r hfuel
    have hge := jfuelItems_ge v vs
    have hvpos := jfuel_pos v
    obtain ⟨f, rfl⟩ : ∃ f, fuel = f + 1 := ⟨fuel - 1, by omega⟩
    rw [parseItems_succ]
    have hv : parseValue f (serItemsD lvl v vs ++ (nlIndent (2 * lvl) ++ ']' :: r))
        = some (v, serTailItems lvl vs ++ (nlIndent (2 * lvl) ++ ']' :: r)) := by
      rw [serItemsD_decomp, List.append_assoc,
        parseValue_ws_prefix f _ _ (nlIndent_all_ws _)]
      rw [show (serVal (lvl + 1) v ++ serTailItems lvl vs)
            ++ (nlIndent (2 * lvl) ++ ']' :: r)
          = serVal (lvl + 1) v
            ++ (serTailItems lvl vs ++ (nlIndent (2 * lvl) ++ ']' :: r)) from by simp]
      exact (ih f (by omega)).1 (lvl + 1) v _ (by omega)
        (serTailItems_head lvl vs (2 * lvl) (']' :: r))
    cases vs with
    | nil =>
      have h3 : skipWs (serTailItems lvl ([] : List Json)
            ++ (nlIndent (2 * lvl) ++ ']' :: r)) = ']' :: r := by
        simp only [serTailItems, List.nil_append]
        rw [skipWs_append_ws _ _ (nlIndent_all_ws _), skipWs_cons_not_ws ']' r (by decide)]
      simp [hv, h3]
    | cons w ws =>
      simp only [jfuelItems] at hfuel
      have h3 : skipWs (serTailItems lvl (w :: ws) ++ (nlIndent (2 * lvl) ++ ']' :: r))
          = ',' :: (serItemsD lvl w ws ++ (nlIndent (2 * lvl) ++ ']' :: r)) := by
        simp only [serTailItems, List.cons_append]
        exact skipWs_cons_not_ws ',' _ (by decide)
      have hrec := (ih f (by omega)).2.2 lvl w ws r (by omega)
      simp [hv, h3, hrec]

theorem nlIndent_length (n : Nat) : (nlIndent n).length = n + 1 := by
  simp [nlIndent]

mutual

theorem jfuel_le_len (lvl : Nat) (v : Json) : jfuel v ≤ (serVal lvl v).length + 1 := by
  cases v with
  | null => simp [jfuel]
  | bool b => cases b <;> simp [jfuel]
  | num i => simp [jfuel]
  | str s => simp [jfuel]
  | arr items =>
    cases items with
    | nil =>
      simp only [jfuel, serVal]
      decide
    | cons v0 vs =>
      have h1 := jfuelItems_le_len lvl v0 vs
      simp only [jfuel, serVal, List.length_cons, List.length_append, nlIndent_length]
      omega
  | obj members =>
    cases members with
    | nil =>
      simp only [jfuel, serVal]
      decide
    | cons m ms =>
      obtain ⟨k, v0⟩ := m
      have h1 := jfuelMembers_le_len lvl k v0 ms
      simp only [jfuel, serVal, List.length_cons, List.length_append, nlIndent_length]
      omega
termination_by sizeOf v

theorem jfuelItems_le_len (lvl : Nat) (v : Json) (vs : List Json) :
    jfuelItems v vs ≤ (serItemsD lvl v vs).length := by
  cases vs with
  | nil =>
    have h1 := jfuel_le_len (lvl + 1) v
    simp only [jfuelItems, serItemsD, List.length_append, nlIndent_length]
    omega
  | cons w ws =>
    have h1 := jfuel_le_len (lvl + 1) v
    have h2 := jfuelItems_le_len lvl w ws
    simp only [jfuelItems, serItemsD, List.length_append, List.length_cons, nlIndent_length]
    omega
termination_by sizeOf v + sizeOf vs

theorem jfuelMembers_le_len (lvl : Nat) (k : List Char) (v : Json)
    (ms : List (List Char × Json)) :
    jfuelMembers v ms ≤ (serMembersD lvl k v ms).length := by
  cases ms with
  | nil =>
    have h1 := jfuel_le_len (lvl + 1) v
    simp only [jfuelMembers, serMembersD, List.length_append, List.length_cons,
      nlIndent_length]
    omega
  | cons m2 ms' =>
    obtain ⟨l, w⟩ := m2
    have h1 := jfuel_le_len (lvl + 1) v
    have h2 := jfuelMembers_le_len lvl l w ms'
    simp only [jfuelMembers, serMembersD, List.length_append, List.length_cons,
      nlIndent_length]
    omega
termination_by sizeOf v + sizeOf ms

end

/-- The export text parses back to the exact JSON image of the history. -/
theorem parseJson_dumpsHistory (h : List Record) :
    parseJson (dumpsHistory h) = some (Json.arr (h.map recordToJson)) := by
  unfold parseJson dumpsHistory
  have hres := (parse_ser_complete
      ((serVal 0 (Json.arr (h.map recordToJson))).length + 1)).1
    0 (Json.arr (h.map recordToJson)) [] (jfuel_le_len 0 _)
    (by intro c hc; simp at hc)
  rw [List.append_nil] at hres
  rw [hres]
  rfl

theorem recordToJson_inj (a b : Record) (h : recordToJson a = recordToJson b) :
    a = b := by
  cases a
  cases b
  simp only [recordToJson, Json.obj.injEq, List.cons.injEq, Prod.mk.injEq,
    Json.str.injEq, and_true, true_and] at h
  simp only [Record.mk.injEq]
  tauto

/-- C5: serializing the session history exactly as the JSON export does and
parsing the text back yields the history's JSON image, and that image
determines the record list uniquely — the round-trip loses nothing. -/
theorem export_roundtrip (h : List Record) :
    parseJson (dumpsHistory h) = some (Json.arr (h.map recordToJson)) ∧
    (∀ h2 : List Record, h2.map recordToJson = h.map recordToJson → h2 = h) := by
  refine ⟨parseJson_dumpsHistory h, ?_⟩
  intro h2 hmap
  exact List.map_injective_iff.mpr (fun a b => recordToJson_inj a b) hmap

theorem export_roundtrip_witness :
    parseJson (dumpsHistory
        [{ text := chars "news", full_text := chars "news",
           verdict := Json.str (chars "Real"), reason := Json.str (chars "ok"),
           score := Json.num 88, timestamp := chars "2025-01-01 00:00:00",
           language := chars "English", model := chars "Gemini 1.5 Flash" }])
      = some (Json.arr
          ([{ text := chars "news", full_text := chars "news",
              verdict := Json.str (chars "Real"), reason := Json.str (chars "ok"),
              score := Json.num 88, timestamp := chars "2025-01-01 00:00:00",
              language := chars "English",
              model := chars "Gemini 1.5 Flash" }].map recordToJson)) ∧
    ([{ text := chars "news", full_text := chars "news",
        verdict := Json.str (chars "Real"), reason := Json.str (chars "ok"),
        score := Json.num 88, timestamp := chars "2025-01-01 00:00:00",
        language := chars "English", model := chars "Gemini 1.5 Flash" }] : List Record)
      = [{ text := chars "news", full_text := chars "news",
           verdict := Json.str (chars "Real"), reason := Json.str (chars "ok"),
           score := Json.num 88, timestamp := chars "2025-01-01 00:00:00",
           language := chars "English", model := chars "Gemini 1.5 Flash" }] :=
  ⟨(export_roundtrip _).1, (export_roundtrip _).2 _ rfl⟩

/-- State of the brace scanner: bracket balance outside string literals, plus
whether the position is inside a string literal and after a backslash. -/
structure ScanSt where
  bal : Int
  inStr : Bool
  esc : Bool

/-- One character of the brace scanner. -/
def scanStep (st : ScanSt) (c : Char) : ScanSt :=
  if st.inStr then
    if st.esc then { st with esc := false }
    else if c = '\\' then { st with esc := true }
    else if c = '"' then { st with inStr := false }
    else st
  else
    if c = '{' then { st with bal := st.bal + 1 }
    else if c = '}' then { st with bal := st.bal - 1 }
    else if c = '"' then { st with inStr := true }
    else st

/-- Run the brace scanner over a string. -/
def scan (st : ScanSt) (t : List Char) : ScanSt :=
  t.foldl scanStep st

theorem scan_append (st : ScanSt) (a b : List Char) :
    scan st (a ++ b) = scan (scan st a) b := by
  simp [scan, List.foldl_append]

theorem scan_cons (st : ScanSt) (c : Char) (t : List Char) :
    scan st (c :: t) = scan (scanStep st c) t := rfl

theorem scanStep_neutral (st : ScanSt) (c : Char) (hs : st.inStr = false)
    (h1 : c ≠ '{') (h2 : c ≠ '}') (h3 : c ≠ '"') : scanStep st c = st := by
  simp [scanStep, hs, h1, h2, h3]

theorem scanStep_ws (st : ScanSt) (c : Char) (hs : st.inStr = false)
    (h : isWsC c = true) : scanStep st c = st := by
  refine scanStep_neutral st c hs ?_ ?_ ?_ <;>
    (intro hc; subst hc; exact absurd h (by decide))

theorem scan_ws (st : ScanSt) (w : List Char) (hs : st.inStr = false)
    (hw : ∀ c ∈ w, isWsC c = true) : scan st w = st := by
  induction w with
  | nil => rfl
  | cons c w' ih =>
    rw [scan_cons, scanStep_ws st c hs (hw c (List.mem_cons_self c w'))]
    exact ih (fun d hd => hw d (List.mem_cons_of_mem c hd))

theorem parseDigits_consumed (t : List Char) (n : Nat) (r : List Char)
    (h : parseDigits t = some (n, r)) :
    ∃ c, t = c ++ r ∧ ∀ ch ∈ c, isDigitC ch = true := by
  unfold parseDigits at h
  split at h
  · exact absurd h (by simp)
  · refine ⟨t.takeWhile isDigitC, ?_, fun ch hch => List.mem_takeWhile_imp hch⟩
    have h2 : t.dropWhile isDigitC = r := by
      injection h with h'
      injection h' with ha hb
    rw [← h2, List.takeWhile_append_dropWhile]

/-- Scanning an all-digit run changes nothing outside a string. -/
theorem scan_digits (st : ScanSt) (c : List Char) (hs : st.inStr = false)
    (hc : ∀ ch ∈ c, isDigitC ch = true) : scan st c = st := by
  induction c with
  | nil => rfl
  | cons ch c' ih =>
    obtain ⟨h1, _, h3, _, h5, _, _, _, _⟩ :=
      isDigitC_ne ch (hc ch (List.mem_cons_self ch c'))
    rw [scan_cons, scanStep_neutral st ch hs h1 h5 h3]
    exact ih (fun d hd => hc d (List.mem_cons_of_mem ch hd))

/-- The string-body reader consumes through the closing quote; the scan enters
in-string state and leaves it exactly at that quote, never moving the balance. -/
theorem parseStringBody_scan : ∀ (t s r : List Char), parseStringBody t = some (s, r) →
    ∃ c, t = c ++ r ∧
      (∀ b : Int, scan ⟨b, true, false⟩ c = ⟨b, false, false⟩) ∧
      (∀ (b : Int) (p q : List Char), c = p ++ q → (scan ⟨b, true, false⟩ p).bal = b)
  | [], s, r, h => by simp [parseStringBody] at h
  | c :: rest, s, r, h => by
    by_cases hc : c = '\\'
    · subst hc
      cases rest with
      | nil =>
        rw [parseStringBody_cons, if_pos rfl] at h
        exact Option.noConfusion h
      | cons e rest2 =>
        rw [parseStringBody_esc] at h
        cases hu : unescape e with
        | none =>
          rw [hu] at h
          exact Option.noConfusion h
        | some d =>
          rw [hu] at h
          have h2 : (parseStringBody rest2).map (fun p => (d :: p.1, p.2)) = some (s, r) := h
          obtain ⟨⟨s2, r2⟩, hps, heq⟩ := Option.map_eq_some'.mp h2
          obtain ⟨c2, hc2, hscan, hpre⟩ := parseStringBody_scan rest2 s2 r2 hps
          have hr : r2 = r := congrArg Prod.snd heq
          subst hr
          have hstep1 : ∀ b : Int, scanStep (⟨b, true, false⟩ : ScanSt) '\\' = ⟨b, true, true⟩ := by
            intro b; simp [scanStep]
          have hstep2 : ∀ b : Int, scanStep (⟨b, true, true⟩ : ScanSt) e = ⟨b, true, false⟩ := by
            intro b; simp [scanStep]
          refine ⟨'\\' :: e :: c2, by simp [hc2], ?_, ?_⟩
          · intro b
            rw [scan_cons, scan_cons, hstep1 b, hstep2 b]
            exact hscan b
          · intro b p q hpq
            match p, hpq with
            | [], _ => rfl
            | [p0], hpq =>
              have hp0 : '\\' = p0 := by
                have h3 := congrArg (fun l => l.head?) hpq
                simpa using h3
              rw [← hp0, scan_cons, hstep1 b]
              rfl
            | p0 :: p1 :: p'', hpq =>
              have h3 : '\\' = p0 ∧ e = p1 ∧ c2 = p'' ++ q := by simpa using hpq
              obtain ⟨h4, h5, hc2eq⟩ := h3
              rw [← h4, ← h5, scan_cons, scan_cons, hstep1 b, hstep2 b]
              exact hpre b p'' q hc2eq
    · rw [parseStringBody_cons, if_neg hc] at h
      by_cases hq : c = '"'
      · subst hq
        rw [if_pos rfl] at h
        have h1 : (([] : List Char), rest) = (s, r) := by injection h
        have hs2 : rest = r := congrArg Prod.snd h1
        have hstepq : ∀ b : Int, scanStep (⟨b, true, false⟩ : ScanSt) '"' = ⟨b, false, false⟩ := by
          intro b; simp [scanStep, hc]
        refine ⟨['"'], by simp [hs2], ?_, ?_⟩
        · intro b
          rw [scan_cons, hstepq b]
          rfl
        · intro b p q hpq
          match p, hpq with
          | [], _ => rfl
          | [p0], hpq =>
            have hp0 : '"' = p0 := by
              have h3 := congrArg (fun l => l.head?) hpq
              simpa using h3
            rw [← hp0, scan_cons, hstepq b]
            rfl
          | c0 :: c1 :: p'', hpq =>
            exact absurd (congrArg List.length hpq) (by simp)
      · rw [if_neg hq] at h
        obtain ⟨⟨s2, r2⟩, hps, heq⟩ := Option.map_eq_some'.mp h
        obtain ⟨c2, hc2, hscan, hpre⟩ := parseStringBody_scan rest s2 r2 hps
        have hr : r2 = r := congrArg Prod.snd heq
        subst hr
        have hstep : ∀ b : Int, scanStep (⟨b, true, false⟩ : ScanSt) c = ⟨b, true, false⟩ := by
          intro b
          simp [scanStep, hc, hq]
        refine ⟨c :: c2, by simp [hc2], ?_, ?_⟩
        · intro b
          rw [scan_cons, hstep b]
          exact hscan b
        · intro b p q hpq
          match p, hpq with
          | [], _ => rfl
          | c0 :: p', hpq =>
            have h3 : c = c0 ∧ c2 = p' ++ q := by simpa using hpq
            obtain ⟨hc0, hc2eq⟩ := h3
            rw [← hc0, scan_cons, hstep b]
            exact hpre b p' q hc2eq

/-- Every prefix of `c`, scanned from `st`, keeps the balance at least `b`. -/
def DipSeg (st : ScanSt) (b : Int) (c : List Char) : Prop :=
  ∀ p q : List Char, c = p ++ q → b ≤ (scan st p).bal

/-- Every proper prefix of `c`, scanned from `st`, keeps the balance at least `b`. -/
def DipSegS (st : ScanSt) (b : Int) (c : List Char) : Prop :=
  ∀ p q : List Char, c = p ++ q → q ≠ [] → b ≤ (scan st p).bal

theorem dipSeg_append {st : ScanSt} {b : Int} {A B : List Char}
    (hA : DipSeg st b A) (hB : DipSeg (scan st A) b B) : DipSeg st b (A ++ B) := by
  intro p q hpq
  rcases List.append_eq_append_iff.mp hpq with ⟨a, ha1, ha2⟩ | ⟨a, ha1, ha2⟩
  · subst ha1
    rw [scan_append]
    exact hB a q ha2
  · exact hA p a ha1

theorem dipSegS_append {st : ScanSt} {b : Int} {A B : List Char}
    (hA : DipSeg st b A) (hB : DipSegS (scan st A) b B) : DipSegS st b (A ++ B) := by
  intro p q hpq hq
  rcases List.append_eq_append_iff.mp hpq with ⟨a, ha1, ha2⟩ | ⟨a, ha1, ha2⟩
  · subst ha1
    rw [scan_append]
    exact hB a q ha2 hq
  · exact hA p a ha1

theorem dipSeg_nil {st : ScanSt} {b : Int} (h0 : b ≤ st.bal) : DipSeg st b [] := by
  intro p q hpq
  have hp : p = [] := by
    have h1 := congrArg List.length hpq
    simp at h1
    exact List.length_eq_zero.mp (by omega)
  subst hp
  exact h0

theorem dipSeg_cons {st : ScanSt} {b : Int} {ch : Char} {t : List Char}
    (h0 : b ≤ st.bal) (h : DipSeg (scanStep st ch) b t) : DipSeg st b (ch :: t) := by
  intro p q hpq
  match p, hpq with
  | [], _ => exact h0
  | p0 :: p', hpq =>
    have h3 : ch = p0 ∧ t = p' ++ q := by simpa using hpq
    rw [← h3.1, scan_cons]
    exact h p' q h3.2

theorem dipSegS_cons {st : ScanSt} {b : Int} {ch : Char} {t : List Char}
    (h0 : b ≤ st.bal) (h : DipSegS (scanStep st ch) b t) : DipSegS st b (ch :: t) := by
  intro p q hpq hq
  match p, hpq with
  | [], _ => exact h0
  | p0 :: p', hpq =>
    have h3 : ch = p0 ∧ t = p' ++ q := by simpa using hpq
    rw [← h3.1, scan_cons]
    exact h p' q h3.2 hq

theorem dipSeg_ws {st : ScanSt} {b : Int} {w : List Char} (hs : st.inStr = false)
    (h0 : b ≤ st.bal) (hw : ∀ c ∈ w, isWsC c = true) : DipSeg st b w := by
  intro p q hpq
  have hp : ∀ c ∈ p, isWsC c = true := fun c hc => hw c (hpq ▸ List.mem_append_left q hc)
  rw [scan_ws st p hs hp]
  exact h0

theorem dipSegS_close (b : Int) : DipSegS ⟨b, false, false⟩ b ['}'] := by
  intro p q hpq hq
  match p, hpq with
  | [], _ => exact le_refl b
  | p0 :: p', hpq =>
    have h3 : '}' = p0 ∧ ([] : List Char) = p' ++ q := by simpa using hpq
    exact absurd h3.2.symm (by simp [hq])

theorem dipSegS_of_dipSeg {st : ScanSt} {b : Int} {c : List Char}
    (h : DipSeg st b c) : DipSegS st b c :=
  fun p q hpq _ => h p q hpq

theorem dipSeg_weaken {st : ScanSt} {b b' : Int} {c : List Char} (hb : b ≤ b')
    (h : DipSeg st b' c) : DipSeg st b c :=
  fun p q hpq => le_trans hb (h p q hpq)

theorem dipSeg_of_strict_close {st : ScanSt} {b b' : Int} {c : List Char}
    (h : DipSegS st b' c) (hend : b ≤ (scan st c).bal) (hb : b ≤ b') : DipSeg st b c := by
  intro p q hpq
  cases q with
  | nil =>
    rw [List.append_nil] at hpq
    rw [← hpq]
    exact hend
  | cons q0 q' => exact le_trans hb (h p (q0 :: q') hpq (by simp))

theorem skipWs_decomp (t : List Char) :
    t = t.takeWhile isWsC ++ skipWs t ∧ ∀ c ∈ t.takeWhile isWsC, isWsC c = true := by
  constructor
  · rw [show skipWs t = t.dropWhile isWsC from rfl, List.takeWhile_append_dropWhile]
  · exact fun c hc => List.mem_takeWhile_imp hc

theorem scanStep_open (b : Int) : scanStep ⟨b, false, false⟩ '{' = ⟨b + 1, false, false⟩ := by
  simp [scanStep]

theorem scanStep_close (b : Int) : scanStep ⟨b, false, false⟩ '}' = ⟨b - 1, false, false⟩ := by
  simp [scanStep]

theorem scanStep_quote (b : Int) : scanStep ⟨b, false, false⟩ '"' = ⟨b, true, false⟩ := by
  simp [scanStep]

theorem scan_single_close (b : Int) : scan ⟨b, false, false⟩ ['}'] = ⟨b - 1, false, false⟩ := by
  rw [scan_cons, scanStep_close]
  rfl

/-- Characters that are not braces or quotes leave the scanner state unchanged. -/
theorem scan_neutralAll (st : ScanSt) (w : List Char) (hs : st.inStr = false)
    (hw : ∀ c ∈ w, c ≠ '{' ∧ c ≠ '}' ∧ c ≠ '"') : scan st w = st := by
  induction w with
  | nil => rfl
  | cons c w' ih =>
    obtain ⟨h1, h2, h3⟩ := hw c (List.mem_cons_self c w')
    rw [scan_cons, scanStep_neutral st c hs h1 h2 h3]
    exact ih (fun d hd => hw d (List.mem_cons_of_mem c hd))

theorem dipSeg_neutralAll {st : ScanSt} {b : Int} {w : List Char} (hs : st.inStr = false)
    (h0 : b ≤ st.bal) (hw : ∀ c ∈ w, c ≠ '{' ∧ c ≠ '}' ∧ c ≠ '"') : DipSeg st b w := by
  intro p q hpq
  have hp : ∀ c ∈ p, c ≠ '{' ∧ c ≠ '}' ∧ c ≠ '"' :=
    fun c hc => hw c (hpq ▸ List.mem_append_left q hc)
  rw [scan_neutralAll st p hs hp]
  exact h0

/-- A whitespace character is not a brace or a quote. -/
theorem isWsC_neutralC (c : Char) (h : isWsC c = true) :
    c ≠ '{' ∧ c ≠ '}' ∧ c ≠ '"' := by
  refine ⟨?_, ?_, ?_⟩ <;> (intro hc; subst hc; exact absurd h (by decide))

/-- A digit character is not a brace or a quote. -/
theorem isDigitC_neutralC (c : Char) (h : isDigitC c = true) :
    c ≠ '{' ∧ c ≠ '}' ∧ c ≠ '"' := by
  obtain ⟨h1, _, h3, _, h5, _, _, _, _⟩ := isDigitC_ne c h
  exact ⟨h1, h5, h3⟩

theorem ws_neutralAll (w : List Char) (hw : ∀ c ∈ w, isWsC c = true) :
    ∀ c ∈ w, c ≠ '{' ∧ c ≠ '}' ∧ c ≠ '"' :=
  fun c hc => isWsC_neutralC c (hw c hc)

/-- The head of the whitespace-stripped input is never whitespace. -/
theorem isWsC_head_skipWs : ∀ (t : List Char) (c : Char) (r : List Char),
    skipWs t = c :: r → isWsC c = false
  | [], c, r, h => by simp [skipWs] at h
  | a :: t', c, r, h => by
    by_cases ha : isWsC a = true
    · have h1 : skipWs (a :: t') = skipWs t' := by simp [skipWs, List.dropWhile, ha]
      exact isWsC_head_skipWs t' c r (h1 ▸ h)
    · have ha' : isWsC a = false := by simpa using ha
      rw [skipWs_cons_not_ws a t' ha'] at h
      have h2 : a = c := by injection h
      exact h2 ▸ ha'

theorem dipSeg_key {b0 b : Int} {ck : List Char} (hb : b ≤ b0)
    (hpre : ∀ (b' : Int) (p q : List Char), ck = p ++ q →
      (scan ⟨b', true, false⟩ p).bal = b') : DipSeg ⟨b0, true, false⟩ b ck := by
  intro p q hpq
  rw [hpre b0 p q hpq]
  exact hb

/-- Scan facts for the text consumed by a complete JSON value: the scan is
neutral, the balance never dips below the start, and an object value ends in
`'}'`, keeps the balance strictly positive inside, and puts an interior `'}'`
before its end for every object-valued member. -/
def ValScan (c : List Char) (v : Json) : Prop :=
  (∀ b : Int, scan ⟨b, false, false⟩ c = ⟨b, false, false⟩) ∧
  (∀ b : Int, DipSeg ⟨b, false, false⟩ b c) ∧
  (∀ ms0, v = Json.obj ms0 →
    (∃ c1, c = c1 ++ ['}']) ∧
    (∀ (b : Int) (p q : List Char), c = '{' :: (p ++ q) → q ≠ [] →
      b + 1 ≤ (scan ⟨b, false, false⟩ ('{' :: p)).bal) ∧
    (∀ k ms2, (k, Json.obj ms2) ∈ ms0 → ∃ p q, c = p ++ '}' :: q ∧ q ≠ []))

/-- Scan facts for object-interior text: it closes one brace overall, proper
prefixes never dip below the start, and it ends in `'}'`. -/
def CloseScan (c : List Char) : Prop :=
  (∀ b : Int, scan ⟨b, false, false⟩ c = ⟨b - 1, false, false⟩) ∧
  (∀ b : Int, DipSegS ⟨b, false, false⟩ b c) ∧
  (∃ c1, c = c1 ++ ['}'])

/-- `CloseScan` plus an interior `'}'` for every object-valued member. -/
def MemScan (c : List Char) (ms : List (List Char × Json)) : Prop :=
  CloseScan c ∧
  (∀ k ms2, (k, Json.obj ms2) ∈ ms → ∃ p q, c = p ++ '}' :: q ∧ q ≠ [])

/-- `CloseScan` plus the interior-`'}'` fact read off the produced object. -/
def ObjScan (c : List Char) (v : Json) : Prop :=
  CloseScan c ∧
  (∀ ms0 k ms2, v = Json.obj ms0 → (k, Json.obj ms2) ∈ ms0 →
    ∃ p q, c = p ++ '}' :: q ∧ q ≠ [])

/-- Scan facts for array-interior and item-list text: neutral, no dip. -/
def ArrScan (c : List Char) : Prop :=
  (∀ b : Int, scan ⟨b, false, false⟩ c = ⟨b, false, false⟩) ∧
  (∀ b : Int, DipSeg ⟨b, false, false⟩ b c)

/-- Soundness statement for `parseValue` at a given fuel. -/
def PVal (fuel : Nat) : Prop :=
  ∀ t v r, parseValue fuel t = some (v, r) → ∃ c, t = c ++ r ∧ ValScan c v

/-- Soundness statement for `parseObjBody` at a given fuel. -/
def PObj (fuel : Nat) : Prop :=
  ∀ t v r, parseObjBody fuel t = some (v, r) → ∃ c, t = c ++ r ∧ ObjScan c v

/-- Soundness statement for `parseMembers` at a given fuel. -/
def PMem (fuel : Nat) : Prop :=
  ∀ t ms r, parseMembers fuel t = some (ms, r) → ∃ c, t = c ++ r ∧ MemScan c ms

/-- Soundness statement for `parseArrBody` at a given fuel. -/
def PArr (fuel : Nat) : Prop :=
  ∀ t v r, parseArrBody fuel t = some (v, r) →
    ∃ c, t = c ++ r ∧ ArrScan c ∧ ∀ ms0, v ≠ Json.obj ms0

/-- Soundness statement for `parseItems` at a given fuel. -/
def PItems (fuel : Nat) : Prop :=
  ∀ t vs r, parseItems fuel t = some (vs, r) → ∃ c, t = c ++ r ∧ ArrScan c

theorem sound_obj_step (f : Nat) (ihM : PMem f) : PObj (f + 1) := by
  intro t v r h
  cases t with
  | nil =>
    rw [parseObjBody] at h
    exact Option.noConfusion h
  | cons c r0 =>
    rw [parseObjBody_cons] at h
    by_cases hc : c = '}'
    · rw [if_pos hc] at h
      have h2 : (Json.obj [], r0) = (v, r) := by injection h
      have hv : Json.obj [] = v := congrArg Prod.fst h2
      have hr : r0 = r := congrArg Prod.snd h2
      subst hc
      refine ⟨['}'], by rw [hr]; rfl, ?_, ?_⟩
      · exact ⟨fun b => scan_single_close b, fun b => dipSegS_close b, ⟨[], rfl⟩⟩
      · intro ms0 k ms2 hveq hmem
        rw [← hv] at hveq
        have hms : [] = ms0 := by injection hveq
        rw [← hms] at hmem
        exact absurd hmem (List.not_mem_nil _)
    · rw [if_neg hc] at h
      obtain ⟨⟨ms, r'⟩, hm, heq⟩ := Option.map_eq_some'.mp h
      have hv : Json.obj ms = v := congrArg Prod.fst heq
      have hr : r' = r := congrArg Prod.snd heq
      rw [hr] at hm
      obtain ⟨cm, hcm, hclose, hinner⟩ := ihM (c :: r0) ms r hm
      refine ⟨cm, hcm, hclose, ?_⟩
      intro ms0 k ms2 hveq hmem
      rw [← hv] at hveq
      have hms : ms = ms0 := by injection hveq
      exact hinner k ms2 (hms ▸ hmem)

theorem sound_arr_step (f : Nat) (ihI : PItems f) : PArr (f + 1) := by
  intro t v r h
  cases t with
  | nil =>
    rw [parseArrBody] at h
    exact Option.noConfusion h
  | cons c r0 =>
    rw [parseArrBody_cons] at h
    by_cases hc : c = ']'
    · rw [if_pos hc] at h
      have h2 : (Json.arr [], r0) = (v, r) := by injection h
      have hv : Json.arr [] = v := congrArg Prod.fst h2
      have hr : r0 = r := congrArg Prod.snd h2
      subst hc
      have hn : ∀ ch ∈ ([']'] : List Char), ch ≠ '{' ∧ ch ≠ '}' ∧ ch ≠ '"' := by decide
      refine ⟨[']'], by rw [hr]; rfl, ⟨?_, ?_⟩, ?_⟩
      · exact fun b => scan_neutralAll _ _ rfl hn
      · exact fun b => dipSeg_neutralAll rfl (le_refl b) hn
      · intro ms0 hveq
        rw [← hv] at hveq
        exact Json.noConfusion hveq
    · rw [if_neg hc] at h
      obtain ⟨⟨vs, r'⟩, hi, heq⟩ := Option.map_eq_some'.mp h
      have hv : Json.arr vs = v := congrArg Prod.fst heq
      have hr : r' = r := congrArg Prod.snd heq
      rw [hr] at hi
      obtain ⟨ci, hci, harr⟩ := ihI (c :: r0) vs r hi
      refine ⟨ci, hci, harr, ?_⟩
      intro ms0 hveq
      rw [← hv] at hveq
      exact Json.noConfusion hveq

theorem sound_items_step (f : Nat) (ihV : PVal f) (ihI : PItems f) : PItems (f + 1) := by
  intro t vs r h
  rw [parseItems_succ] at h
  split at h
  · exact Option.noConfusion h
  · rename_i v r1 hv
    split at h
    · exact Option.noConfusion h
    · rename_i c0 r2 hsw
      obtain ⟨cv, hcv, hvN, hvD, hvO⟩ := ihV t v r1 hv
      have hws : r1 = r1.takeWhile isWsC ++ (c0 :: r2) := by
        have hd := (skipWs_decomp r1).1
        rw [hsw] at hd
        exact hd
      have hwsall : ∀ ch ∈ r1.takeWhile isWsC, isWsC ch = true := (skipWs_decomp r1).2
      by_cases hc : c0 = ','
      · rw [if_pos hc] at h
        split at h
        · exact Option.noConfusion h
        · rename_i vs' r3 hi
          have h2 : (v :: vs', r3) = (vs, r) := by injection h
          have hr : r3 = r := congrArg Prod.snd h2
          rw [hr] at hi
          obtain ⟨ci, hci, hiN, hiD⟩ := ihI r2 vs' r hi
          refine ⟨cv ++ (r1.takeWhile isWsC ++ (',' :: ci)), ?_, ?_, ?_⟩
          · rw [hcv]
            conv_lhs => rw [hws]
            rw [hc, hci]
            simp
          · intro b
            rw [scan_append, hvN b, scan_append, scan_ws _ _ rfl hwsall, scan_cons,
                scanStep_neutral _ _ rfl (by decide) (by decide) (by decide)]
            exact hiN b
          · intro b
            refine dipSeg_append (hvD b) ?_
            rw [hvN b]
            refine dipSeg_append (dipSeg_ws rfl (le_refl b) hwsall) ?_
            rw [scan_ws _ _ rfl hwsall]
            refine dipSeg_cons (le_refl b) ?_
            rw [scanStep_neutral _ _ rfl (by decide) (by decide) (by decide)]
            exact hiD b
      · by_cases hc2 : c0 = ']'
        · rw [if_neg hc, if_pos hc2] at h
          have h2 : ([v], r2) = (vs, r) := by injection h
          have hr : r2 = r := congrArg Prod.snd h2
          refine ⟨cv ++ (r1.takeWhile isWsC ++ [']']), ?_, ?_, ?_⟩
          · rw [hcv]
            conv_lhs => rw [hws]
            rw [hc2, hr]
            simp
          · intro b
            rw [scan_append, hvN b, scan_append, scan_ws _ _ rfl hwsall, scan_cons,
                scanStep_neutral _ _ rfl (by decide) (by decide) (by decide)]
            rfl
          · intro b
            refine dipSeg_append (hvD b) ?_
            rw [hvN b]
            refine dipSeg_append (dipSeg_ws rfl (le_refl b) hwsall) ?_
            rw [scan_ws _ _ rfl hwsall]
            refine dipSeg_cons (le_refl b) ?_
            rw [scanStep_neutral _ _ rfl (by decide) (by decide) (by decide)]
            exact dipSeg_nil (le_refl b)
        · rw [if_neg hc, if_neg hc2] at h
          exact Option.noConfusion h

theorem sound_members_step (f : Nat) (ihV : PVal f) (ihM : PMem f) : PMem (f + 1) := by
  intro t ms r h
  cases t with
  | nil =>
    rw [parseMembers] at h
    exact Option.noConfusion h
  | cons c r0 =>
    rw [parseMembers_cons] at h
    by_cases hq : c = '"'
    · rw [if_pos hq] at h
      subst hq
      split at h
      · exact Option.noConfusion h
      · rename_i k r1 hk
        split at h
        · exact Option.noConfusion h
        · rename_i c2 r2 hsw1
          by_cases hc2 : c2 = ':'
          · rw [if_pos hc2] at h
            split at h
            · exact Option.noConfusion h
            · rename_i v r3 hv
              split at h
              · exact Option.noConfusion h
              · rename_i c3 r4 hsw3
                obtain ⟨ck, hck, hkS, hkP⟩ := parseStringBody_scan r0 k r1 hk
                have hwsa : r1 = r1.takeWhile isWsC ++ (c2 :: r2) := by
                  have hd := (skipWs_decomp r1).1
                  rw [hsw1] at hd
                  exact hd
                have hwsaall : ∀ ch ∈ r1.takeWhile isWsC, isWsC ch = true := (skipWs_decomp r1).2
                obtain ⟨cv, hcv, hvN, hvD, hvO⟩ := ihV r2 v r3 hv
                have hwsb : r3 = r3.takeWhile isWsC ++ (c3 :: r4) := by
                  have hd := (skipWs_decomp r3).1
                  rw [hsw3] at hd
                  exact hd
                have hwsball : ∀ ch ∈ r3.takeWhile isWsC, isWsC ch = true := (skipWs_decomp r3).2
                by_cases h3c : c3 = ','
                · rw [if_pos h3c] at h
                  split at h
                  · exact Option.noConfusion h
                  · rename_i ms' r5 hm
                    have h2 : ((k, v) :: ms', r5) = (ms, r) := by injection h
                    have hms : (k, v) :: ms' = ms := congrArg Prod.fst h2
                    have hr : r5 = r := congrArg Prod.snd h2
                    rw [hr] at hm
                    obtain ⟨cm, hcm, ⟨hmN, hmD, hmE⟩, hmI⟩ := ihM (skipWs r4) ms' r hm
                    have hwsc : r4 = r4.takeWhile isWsC ++ (cm ++ r) := by
                      have hd := (skipWs_decomp r4).1
                      rw [hcm] at hd
                      exact hd
                    have hwscall : ∀ ch ∈ r4.takeWhile isWsC, isWsC ch = true :=
                      (skipWs_decomp r4).2
                    refine ⟨'"' :: (ck ++ (r1.takeWhile isWsC ++ (':' :: (cv ++
                      (r3.takeWhile isWsC ++ (',' :: (r4.takeWhile isWsC ++ cm))))))), ?_, ?_, ?_⟩
                    · rw [hck]
                      conv_lhs => rw [hwsa]
                      rw [hc2, hcv]
                      conv_lhs => rw [hwsb]
                      rw [h3c]
                      conv_lhs => rw [hwsc]
                      simp
                    · refine ⟨?_, ?_, ?_⟩
                      · intro b
                        rw [scan_cons, scanStep_quote b, scan_append, hkS b, scan_append,
                            scan_ws _ _ rfl hwsaall, scan_cons,
                            scanStep_neutral _ _ rfl (by decide) (by decide) (by decide),
                            scan_append, hvN b, scan_append, scan_ws _ _ rfl hwsball,
                            scan_cons,
                            scanStep_neutral _ _ rfl (by decide) (by decide) (by decide),
                            scan_append, scan_ws _ _ rfl hwscall]
                        exact hmN b
                      · intro b
                        refine dipSegS_cons (le_refl b) ?_
                        rw [scanStep_quote b]
                        refine dipSegS_append (dipSeg_key (le_refl b) hkP) ?_
                        rw [hkS b]
                        refine dipSegS_append (dipSeg_ws rfl (le_refl b) hwsaall) ?_
                        rw [scan_ws _ _ rfl hwsaall]
                        refine dipSegS_cons (le_refl b) ?_
                        rw [scanStep_neutral _ _ rfl (by decide) (by decide) (by decide)]
                        refine dipSegS_append (hvD b) ?_
                        rw [hvN b]
                        refine dipSegS_append (dipSeg_ws rfl (le_refl b) hwsball) ?_
                        rw [scan_ws _ _ rfl hwsball]
                        refine dipSegS_cons (le_refl b) ?_
                        rw [scanStep_neutral _ _ rfl (by decide) (by decide) (by decide)]
                        refine dipSegS_append (dipSeg_ws rfl (le_refl b) hwscall) ?_
                        rw [scan_ws _ _ rfl hwscall]
                        exact hmD b
                      · obtain ⟨cm1, hcm1⟩ := hmE
                        refine ⟨'"' :: (ck ++ (r1.takeWhile isWsC ++ (':' :: (cv ++
                          (r3.takeWhile isWsC ++ (',' :: (r4.takeWhile isWsC ++ cm1))))))), ?_⟩
                        rw [hcm1]
                        simp
                    · intro k' ms2 hmem
                      rw [← hms] at hmem
                      rcases List.mem_cons.mp hmem with heq | htail
                      · have hveq : v = Json.obj ms2 := (congrArg Prod.snd heq).symm
                        obtain ⟨⟨cv1, hcv1⟩, _, _⟩ := hvO ms2 hveq
                        refine ⟨'"' :: (ck ++ (r1.takeWhile isWsC ++ (':' :: cv1))),
                          r3.takeWhile isWsC ++ (',' :: (r4.takeWhile isWsC ++ cm)),
                          ?_, by simp⟩
                        rw [hcv1]
                        simp
                      · obtain ⟨pm, qm, hpm, hqm⟩ := hmI k' ms2 htail
                        refine ⟨'"' :: (ck ++ (r1.takeWhile isWsC ++ (':' :: (cv ++
                          (r3.takeWhile isWsC ++ (',' :: (r4.takeWhile isWsC ++ pm))))))),
                          qm, ?_, hqm⟩
                        rw [hpm]
                        simp
                · by_cases h3b : c3 = '}'
                  · rw [if_neg h3c, if_pos h3b] at h
                    have h2 : ([(k, v)], r4) = (ms, r) := by injection h
                    have hms : [(k, v)] = ms := congrArg Prod.fst h2
                    have hr : r4 = r := congrArg Prod.snd h2
                    refine ⟨'"' :: (ck ++ (r1.takeWhile isWsC ++ (':' :: (cv ++
                      (r3.takeWhile isWsC ++ ['}']))))), ?_, ?_, ?_⟩
                    · rw [hck]
                      conv_lhs => rw [hwsa]
                      rw [hc2, hcv]
                      conv_lhs => rw [hwsb]
                      rw [h3b, hr]
                      simp
                    · refine ⟨?_, ?_, ?_⟩
                      · intro b
                        rw [scan_cons, scanStep_quote b, scan_append, hkS b, scan_append,
                            scan_ws _ _ rfl hwsaall, scan_cons,
                            scanStep_neutral _ _ rfl (by decide) (by decide) (by decide),
                            scan_append, hvN b, scan_append, scan_ws _ _ rfl hwsball]
                        exact scan_single_close b
                      · intro b
                        refine dipSegS_cons (le_refl b) ?_
                        rw [scanStep_quote b]
                        refine dipSegS_append (dipSeg_key (le_refl b) hkP) ?_
                        rw [hkS b]
                        refine dipSegS_append (dipSeg_ws rfl (le_refl b) hwsaall) ?_
                        rw [scan_ws _ _ rfl hwsaall]
                        refine dipSegS_cons (le_refl b) ?_
                        rw [scanStep_neutral _ _ rfl (by decide) (by decide) (by decide)]
                        refine dipSegS_append (hvD b) ?_
                        rw [hvN b]
                        refine dipSegS_append (dipSeg_ws rfl (le_refl b) hwsball) ?_
                        rw [scan_ws _ _ rfl hwsball]
                        exact dipSegS_close b
                      · exact ⟨'"' :: (ck ++ (r1.takeWhile isWsC ++ (':' :: (cv ++
                          r3.takeWhile isWsC)))), by simp⟩
                    · intro k' ms2 hmem
                      rw [← hms] at hmem
                      have heq : (k', Json.obj ms2) = (k, v) := List.mem_singleton.mp hmem
                      have hveq : v = Json.obj ms2 := (congrArg Prod.snd heq).symm
                      obtain ⟨⟨cv1, hcv1⟩, _, _⟩ := hvO ms2 hveq
                      refine ⟨'"' :: (ck ++ (r1.takeWhile isWsC ++ (':' :: cv1))),
                        r3.takeWhile isWsC ++ ['}'], ?_, by simp⟩
                      rw [hcv1]
                      simp
                  · rw [if_neg h3c, if_neg h3b] at h
                    exact Option.noConfusion h
          · rw [if_neg hc2] at h
            exact Option.noConfusion h
    · rw [if_neg hq] at h
      exact Option.noConfusion h

theorem sound_val_step (f : Nat) (ihO : PObj f) (ihA : PArr f) : PVal (f + 1) := by
  intro t v r h
  rw [← parseValue_skipWs (f + 1) t] at h
  cases hsk : skipWs t with
  | nil =>
    rw [hsk, parseValue] at h
    exact Option.noConfusion h
  | cons c r0 =>
    rw [hsk] at h
    have hcws : isWsC c = false := isWsC_head_skipWs t c r0 hsk
    rw [parseValue_cons f c r0 hcws] at h
    have hws1 : t = t.takeWhile isWsC ++ (c :: r0) := by
      have hd := (skipWs_decomp t).1
      rw [hsk] at hd
      exact hd
    have hws1all : ∀ ch ∈ t.takeWhile isWsC, isWsC ch = true := (skipWs_decomp t).2
    by_cases hc1 : c = '{'
    · rw [if_pos hc1] at h
      obtain ⟨cb, hcb, ⟨hbC, hbD, hbE⟩, hbI⟩ := ihO (skipWs r0) v r h
      have hws2 : r0 = r0.takeWhile isWsC ++ (cb ++ r) := by
        have hd := (skipWs_decomp r0).1
        rw [hcb] at hd
        exact hd
      have hws2all : ∀ ch ∈ r0.takeWhile isWsC, isWsC ch = true := (skipWs_decomp r0).2
      refine ⟨t.takeWhile isWsC ++ ('{' :: (r0.takeWhile isWsC ++ cb)), ?_, ?_, ?_, ?_⟩
      · conv_lhs => rw [hws1]
        rw [hc1]
        conv_lhs => rw [hws2]
        simp
      · intro b
        rw [scan_append, scan_ws _ _ rfl hws1all, scan_cons, scanStep_open b, scan_append,
            scan_ws _ _ rfl hws2all, hbC (b + 1)]
        have harith : b + 1 - 1 = b := by omega
        rw [harith]
      · intro b
        refine dipSeg_append (dipSeg_ws rfl (le_refl b) hws1all) ?_
        rw [scan_ws _ _ rfl hws1all]
        refine dipSeg_cons (le_refl b) ?_
        rw [scanStep_open b]
        refine dipSeg_append (dipSeg_ws rfl (by show b ≤ b + 1; omega) hws2all) ?_
        rw [scan_ws _ _ rfl hws2all]
        refine dipSeg_of_strict_close (hbD (b + 1)) ?_ (by omega)
        rw [hbC (b + 1)]
        show b ≤ b + 1 - 1
        omega
      · intro ms0 hveq
        refine ⟨?_, ?_, ?_⟩
        · obtain ⟨cb1, hcb1⟩ := hbE
          exact ⟨t.takeWhile isWsC ++ ('{' :: (r0.takeWhile isWsC ++ cb1)),
            by rw [hcb1]; simp⟩
        · intro b p q hceq hqne
          cases hW1 : t.takeWhile isWsC with
          | cons w0 w1 =>
            rw [hW1] at hceq
            have hw0 : w0 = '{' := by
              have h3 := congrArg List.head? hceq
              simpa using h3
            have hwsw0 : isWsC w0 = true := hws1all w0 (hW1 ▸ List.mem_cons_self w0 w1)
            rw [hw0] at hwsw0
            exact absurd hwsw0 (by decide)
          | nil =>
            rw [hW1] at hceq
            simp only [List.nil_append, List.cons.injEq, true_and] at hceq
            rw [scan_cons, scanStep_open b]
            rcases List.append_eq_append_iff.mp hceq with ⟨a, ha1, ha2⟩ | ⟨a, ha1, ha2⟩
            · subst ha1
              rw [scan_append, scan_ws _ _ rfl hws2all]
              exact hbD (b + 1) a q ha2 hqne
            · have hpws : ∀ ch ∈ p, isWsC ch = true :=
                fun ch hch => hws2all ch (ha1 ▸ List.mem_append_left a hch)
              rw [scan_ws _ _ rfl hpws]
        · intro k ms2 hmem
          obtain ⟨pb, qb, hpb, hqb⟩ := hbI ms0 k ms2 hveq hmem
          refine ⟨t.takeWhile isWsC ++ ('{' :: (r0.takeWhile isWsC ++ pb)), qb, ?_, hqb⟩
          rw [hpb]
          simp
    · by_cases hc2 : c = '['
      · rw [if_neg hc1, if_pos hc2] at h
        obtain ⟨ca, hca, ⟨haN, haD⟩, hnov⟩ := ihA (skipWs r0) v r h
        have hws2 : r0 = r0.takeWhile isWsC ++ (ca ++ r) := by
          have hd := (skipWs_decomp r0).1
          rw [hca] at hd
          exact hd
        have hws2all : ∀ ch ∈ r0.takeWhile isWsC, isWsC ch = true := (skipWs_decomp r0).2
        refine ⟨t.takeWhile isWsC ++ ('[' :: (r0.takeWhile isWsC ++ ca)), ?_, ?_, ?_, ?_⟩
        · conv_lhs => rw [hws1]
          rw [hc2]
          conv_lhs => rw [hws2]
          simp
        · intro b
          rw [scan_append, scan_ws _ _ rfl hws1all, scan_cons,
              scanStep_neutral _ _ rfl (by decide) (by decide) (by decide), scan_append,
              scan_ws _ _ rfl hws2all]
          exact haN b
        · intro b
          refine dipSeg_append (dipSeg_ws rfl (le_refl b) hws1all) ?_
          rw [scan_ws _ _ rfl hws1all]
          refine dipSeg_cons (le_refl b) ?_
          rw [scanStep_neutral _ _ rfl (by decide) (by decide) (by decide)]
          refine dipSeg_append (dipSeg_ws rfl (le_refl b) hws2all) ?_
          rw [scan_ws _ _ rfl hws2all]
          exact haD b
        · intro ms0 hveq
          exact absurd hveq (hnov ms0)
      · by_cases hc3 : c = '"'
        · rw [if_neg hc1, if_neg hc2, if_pos hc3] at h
          obtain ⟨⟨sk, rk⟩, hps, heq⟩ := Option.map_eq_some'.mp h
          have hveq : Json.str sk = v := congrArg Prod.fst heq
          have hr : rk = r := congrArg Prod.snd heq
          rw [hr] at hps
          obtain ⟨ckk, hck, hkS, hkP⟩ := parseStringBody_scan r0 sk r hps
          refine ⟨t.takeWhile isWsC ++ ('"' :: ckk), ?_, ?_, ?_, ?_⟩
          · conv_lhs => rw [hws1]
            rw [hc3, hck]
            simp
          · intro b
            rw [scan_append, scan_ws _ _ rfl hws1all, scan_cons, scanStep_quote b]
            exact hkS b
          · intro b
            refine dipSeg_append (dipSeg_ws rfl (le_refl b) hws1all) ?_
            rw [scan_ws _ _ rfl hws1all]
            refine dipSeg_cons (le_refl b) ?_
            rw [scanStep_quote b]
            exact dipSeg_key (le_refl b) hkP
          · intro ms0 hveq2
            rw [← hveq] at hveq2
            exact Json.noConfusion hveq2
        · by_cases hc4 : c = '-'
          · rw [if_neg hc1, if_neg hc2, if_neg hc3, if_pos hc4] at h
            obtain ⟨⟨n, rk⟩, hpd, heq⟩ := Option.map_eq_some'.mp h
            have hveq : Json.num (-(n : Int)) = v := congrArg Prod.fst heq
            have hr : rk = r := congrArg Prod.snd heq
            rw [hr] at hpd
            obtain ⟨cd, hcd, hdall⟩ := parseDigits_consumed r0 n r hpd
            have hdneut : ∀ ch ∈ cd, ch ≠ '{' ∧ ch ≠ '}' ∧ ch ≠ '"' :=
              fun ch hch => isDigitC_neutralC ch (hdall ch hch)
            refine ⟨t.takeWhile isWsC ++ ('-' :: cd), ?_, ?_, ?_, ?_⟩
            · conv_lhs => rw [hws1]
              rw [hc4, hcd]
              simp
            · intro b
              rw [scan_append, scan_ws _ _ rfl hws1all, scan_cons,
                  scanStep_neutral _ _ rfl (by decide) (by decide) (by decide)]
              exact scan_neutralAll _ _ rfl hdneut
            · intro b
              refine dipSeg_append (dipSeg_ws rfl (le_refl b) hws1all) ?_
              rw [scan_ws _ _ rfl hws1all]
              refine dipSeg_cons (le_refl b) ?_
              rw [scanStep_neutral _ _ rfl (by decide) (by decide) (by decide)]
              exact dipSeg_neutralAll rfl (le_refl b) hdneut
            · intro ms0 hveq2
              rw [← hveq] at hveq2
              exact Json.noConfusion hveq2
          · by_cases hc5 : isDigitC c = true
            · rw [if_neg hc1, if_neg hc2, if_neg hc3, if_neg hc4, if_pos hc5] at h
              obtain ⟨⟨n, rk⟩, hpd, heq⟩ := Option.map_eq_some'.mp h
              have hveq : Json.num (n : Int) = v := congrArg Prod.fst heq
              have hr : rk = r := congrArg Prod.snd heq
              rw [hr] at hpd
              obtain ⟨cd, hcd, hdall⟩ := parseDigits_consumed (c :: r0) n r hpd
              have hdneut : ∀ ch ∈ cd, ch ≠ '{' ∧ ch ≠ '}' ∧ ch ≠ '"' :=
                fun ch hch => isDigitC_neutralC ch (hdall ch hch)
              refine ⟨t.takeWhile isWsC ++ cd, ?_, ?_, ?_, ?_⟩
              · conv_lhs => rw [hws1]
                rw [hcd]
                simp
              · intro b
                rw [scan_append, scan_ws _ _ rfl hws1all]
                exact scan_neutralAll _ _ rfl hdneut
              · intro b
                refine dipSeg_append (dipSeg_ws rfl (le_refl b) hws1all) ?_
                rw [scan_ws _ _ rfl hws1all]
                exact dipSeg_neutralAll rfl (le_refl b) hdneut
              · intro ms0 hveq2
                rw [← hveq] at hveq2
                exact Json.noConfusion hveq2
            · rw [if_neg hc1, if_neg hc2, if_neg hc3, if_neg hc4, if_neg hc5] at h
              split at h
              · rename_i r2 heq
                have hcr : c = 'n' ∧ r0 = 'u' :: 'l' :: 'l' :: r2 := by simpa using heq
                have h2 : (Json.null, r2) = (v, r) := by injection h
                have hveq : Json.null = v := congrArg Prod.fst h2
                have hr : r2 = r := congrArg Prod.snd h2
                refine ⟨t.takeWhile isWsC ++ ['n', 'u', 'l', 'l'], ?_, ?_, ?_, ?_⟩
                · conv_lhs => rw [hws1]
                  rw [hcr.1, hcr.2, hr]
                  simp
                · intro b
                  rw [scan_append, scan_ws _ _ rfl hws1all]
                  exact scan_neutralAll _ _ rfl (by decide)
                · intro b
                  refine dipSeg_append (dipSeg_ws rfl (le_refl b) hws1all) ?_
                  rw [scan_ws _ _ rfl hws1all]
                  exact dipSeg_neutralAll rfl (le_refl b) (by decide)
                · intro ms0 hveq2
                  rw [← hveq] at hveq2
                  exact Json.noConfusion hveq2
              · rename_i r2 heq
                have hcr : c = 't' ∧ r0 = 'r' :: 'u' :: 'e' :: r2 := by simpa using heq
                have h2 : (Json.bool true, r2) = (v, r) := by injection h
                have hveq : Json.bool true = v := congrArg Prod.fst h2
                have hr : r2 = r := congrArg Prod.snd h2
                refine ⟨t.takeWhile isWsC ++ ['t', 'r', 'u', 'e'], ?_, ?_, ?_, ?_⟩
                · conv_lhs => rw [hws1]
                  rw [hcr.1, hcr.2, hr]
                  simp
                · intro b
                  rw [scan_append, scan_ws _ _ rfl hws1all]
                  exact scan_neutralAll _ _ rfl (by decide)
                · intro b
                  refine dipSeg_append (dipSeg_ws rfl (le_refl b) hws1all) ?_
                  rw [scan_ws _ _ rfl hws1all]
                  exact dipSeg_neutralAll rfl (le_refl b) (by decide)
                · intro ms0 hveq2
                  rw [← hveq] at hveq2
                  exact Json.noConfusion hveq2
              · rename_i r2 heq
                have hcr : c = 'f' ∧ r0 = 'a' :: 'l' :: 's' :: 'e' :: r2 := by simpa using heq
                have h2 : (Json.bool false, r2) = (v, r) := by injection h
                have hveq : Json.bool false = v := congrArg Prod.fst h2
                have hr : r2 = r := congrArg Prod.snd h2
                refine ⟨t.takeWhile isWsC ++ ['f', 'a', 'l', 's', 'e'], ?_, ?_, ?_, ?_⟩
                · conv_lhs => rw [hws1]
                  rw [hcr.1, hcr.2, hr]
                  simp
                · intro b
                  rw [scan_append, scan_ws _ _ rfl hws1all]
                  exact scan_neutralAll _ _ rfl (by decide)
                · intro b
                  refine dipSeg_append (dipSeg_ws rfl (le_refl b) hws1all) ?_
                  rw [scan_ws _ _ rfl hws1all]
                  exact dipSeg_neutralAll rfl (le_refl b) (by decide)
                · intro ms0 hveq2
                  rw [← hveq] at hveq2
                  exact Json.noConfusion hveq2
              · exact Option.noConfusion h

theorem parseValue_zero (t : List Char) : parseValue 0 t = none := by rw [parseValue]

theorem parseObjBody_zero (t : List Char) : parseObjBody 0 t = none := by rw [parseObjBody]

theorem parseMembers_zero (t : List Char) : parseMembers 0 t = none := by rw [parseMembers]

theorem parseArrBody_zero (t : List Char) : parseArrBody 0 t = none := by rw [parseArrBody]

theorem parseItems_zero (t : List Char) : parseItems 0 t = none := by rw [parseItems]

/-- The scanner soundness of the JSON reader, by induction on fuel: the text a
successful parse consumes scans neutrally (values), or closes exactly one brace
(object interiors), with the stated no-dip, ends-with-brace and interior-brace
facts. -/
theorem parse_scan_sound : ∀ fuel : Nat,
    PVal fuel ∧ PObj fuel ∧ PMem fuel ∧ PArr fuel ∧ PItems fuel := by
  intro fuel
  induction fuel with
  | zero =>
    refine ⟨?_, ?_, ?_, ?_, ?_⟩
    · intro t v r h
      rw [parseValue_zero] at h
      exact Option.noConfusion h
    · intro t v r h
      rw [parseObjBody_zero] at h
      exact Option.noConfusion h
    · intro t ms r h
      rw [parseMembers_zero] at h
      exact Option.noConfusion h
    · intro t v r h
      rw [parseArrBody_zero] at h
      exact Option.noConfusion h
    · intro t vs r h
      rw [parseItems_zero] at h
      exact Option.noConfusion h
  | succ f ih =>
    obtain ⟨ihV, ihO, ihM, ihA, ihI⟩ := ih
    exact ⟨sound_val_step f ihO ihA, sound_obj_step f ihM, sound_members_step f ihV ihM,
      sound_arr_step f ihI, sound_items_step f ihV ihI⟩

/-- Split a list at its first `'}'`. -/
theorem exists_first_close : ∀ l : List Char, '}' ∈ l →
    ∃ u1 u2, l = u1 ++ '}' :: u2 ∧ '}' ∉ u1
  | [], h => absurd h (List.not_mem_nil _)
  | c :: rest, h => by
    by_cases hc : c = '}'
    · exact ⟨[], rest, by rw [hc]; rfl, List.not_mem_nil _⟩
    · have hmem : '}' ∈ rest := by
        rcases List.mem_cons.mp h with h1 | h1
        · exact absurd h1.symm hc
        · exact h1
      obtain ⟨u1, u2, he, hn⟩ := exists_first_close rest hmem
      refine ⟨c :: u1, u2, by rw [he]; rfl, ?_⟩
      intro hm
      rcases List.mem_cons.mp hm with h1 | h1
      · exact hc h1.symm
      · exact hn h1

/-- If some `'}'` of `c` is not the last character, then the first `'}'` is not
the last character either. -/
theorem first_close_proper (c p q p' q' : List Char) (h : c = p ++ '}' :: q) (hq : q ≠ [])
    (h' : c = p' ++ '}' :: q') (hp' : '}' ∉ p') : q' ≠ [] := by
  intro hq'
  subst hq'
  obtain ⟨q0, l, hq0⟩ := (List.eq_nil_or_concat q).resolve_left hq
  subst hq0
  rw [h'] at h
  have h2 : p' ++ ['}'] = (p ++ '}' :: q0) ++ [l] := by
    rw [h]
    simp
  have h3 := List.append_inj' h2 (by simp)
  rw [h3.1] at hp'
  exact hp' (by simp)

/-- A successfully decoded document scans to balance zero, out of any string. -/
theorem parse_prefix_bal (s : List Char) (w : Json) (h : parseJson s = some w) :
    scan ⟨0, false, false⟩ s = ⟨0, false, false⟩ := by
  unfold parseJson at h
  cases hv : parseValue (s.length + 1) s with
  | none =>
    rw [hv] at h
    exact Option.noConfusion h
  | some p =>
    obtain ⟨v, rs⟩ := p
    rw [hv] at h
    by_cases hws : (skipWs rs).isEmpty = true
    · obtain ⟨c, hc, hN, _, _⟩ := (parse_scan_sound (s.length + 1)).1 s v rs hv
      have hrs : skipWs rs = [] := List.isEmpty_iff.mp hws
      have hrsws : ∀ ch ∈ rs, isWsC ch = true := by
        have h1 : rs.dropWhile isWsC = [] := hrs
        exact fun ch hch => List.dropWhile_eq_nil_iff.mp h1 ch hch
      rw [hc, scan_append, hN 0, scan_ws _ _ rfl hrsws]
    · have h2 : (if (skipWs rs).isEmpty = true then some v else none) = some w := h
      rw [if_neg hws] at h2
      exact Option.noConfusion h2

/-- C8 (amended): the extractor returns the substring from the first brace of
the input to the earliest close brace after it; consequently, for every model
reply in which no earlier brace precedes the JSON object and whose object
carries an object-valued member, the extracted substring is a proper (hence
truncated) prefix of the object, it fails to decode, and the analysis surfaces
an error instead of a record. -/
theorem extract_nested_truncation_amended :
    (∀ t s, extract_json t = some s →
      ∃ pre mid post, t = pre ++ s ++ post ∧ '{' ∉ pre ∧ '}' ∉ mid ∧
        s = '{' :: mid ++ ['}']) ∧
    (∀ pre tail post ms k ms2,
      '{' ∉ pre →
      parseJson ('{' :: tail) = some (Json.obj ms) →
      (k, Json.obj ms2) ∈ ms →
      ∃ s rest, extract_json (pre ++ ('{' :: tail) ++ post) = some s ∧
        '{' :: tail = s ++ rest ∧ rest ≠ [] ∧
        parseJson s = none ∧
        isErrorRes (analyze_news true (Except.ok (pre ++ ('{' :: tail) ++ post)))
          = true) := by
  constructor
  · exact extract_json_some
  · intro pre tail post ms k ms2 hpre hparse hmem
    have hparse' := hparse
    unfold parseJson at hparse'
    revert hparse'
    cases hv : parseValue (('{' :: tail).length + 1) ('{' :: tail) with
    | none =>
      intro hparse'
      exact Option.noConfusion hparse'
    | some p =>
      intro hparse'
      obtain ⟨v, robj⟩ := p
      have h2 : (if (skipWs robj).isEmpty = true then some v else none)
          = some (Json.obj ms) := hparse'
      by_cases hws : (skipWs robj).isEmpty = true
      · rw [if_pos hws] at h2
        have hveq : v = Json.obj ms := by injection h2
        obtain ⟨c, hc, hN, hD, hO⟩ :=
          ((parse_scan_sound (('{' :: tail).length + 1)).1) ('{' :: tail) v robj hv
        obtain ⟨hE, hStrict, hInner⟩ := hO ms hveq
        obtain ⟨p0, q0, hp0, hq0⟩ := hInner k ms2 hmem
        have hmemC : '}' ∈ c := by
          rw [hp0]
          simp
        obtain ⟨p1, q1, hfs, hnp1⟩ := exists_first_close c hmemC
        have hq1 : q1 ≠ [] := first_close_proper c p0 q0 p1 q1 hp0 hq0 hfs hnp1
        cases c with
        | nil => exact absurd hfs (by simp)
        | cons c0 c2 =>
          have h3 : '{' = c0 ∧ tail = c2 ++ robj := by simpa using hc
          obtain ⟨hc0, htail⟩ := h3
          subst hc0
          cases p1 with
          | nil => simp at hfs
          | cons a p2 =>
            have h4 : '{' = a ∧ c2 = p2 ++ '}' :: q1 := by simpa using hfs
            obtain ⟨ha, hc2⟩ := h4
            subst ha
            have hnp2 : '}' ∉ p2 := fun hm => hnp1 (List.mem_cons_of_mem _ hm)
            have hreply : pre ++ ('{' :: tail) ++ post
                = pre ++ '{' :: p2 ++ '}' :: ((q1 ++ robj) ++ post) := by
              rw [htail, hc2]
              simp
            have hex : extract_json (pre ++ ('{' :: tail) ++ post)
                = some ('{' :: p2 ++ ['}']) := by
              rw [hreply]
              exact extract_json_of_decomp pre p2 ((q1 ++ robj) ++ post) hpre hnp2
            have hpj : parseJson ('{' :: p2 ++ ['}']) = none := by
              cases hps : parseJson ('{' :: p2 ++ ['}']) with
              | none => rfl
              | some w =>
                exfalso
                have hbal := parse_prefix_bal _ w hps
                have hstrict := hStrict 0 (p2 ++ ['}']) q1 (by rw [hc2]; simp) hq1
                have hseq : ('{' :: p2 ++ ['}'] : List Char) = '{' :: (p2 ++ ['}']) := by
                  simp
                rw [hseq] at hbal
                rw [hbal] at hstrict
                have h5 : (1 : Int) ≤ 0 := by simpa using hstrict
                omega
            refine ⟨'{' :: p2 ++ ['}'], q1 ++ robj, hex, ?_, ?_, hpj, ?_⟩
            · rw [htail, hc2]
              simp
            · intro h0
              exact hq1 (List.append_eq_nil.mp h0).1
            · have hex' : extract_json (pre ++ '{' :: (tail ++ post))
                  = some ('{' :: p2 ++ ['}']) := by
                have hre : pre ++ '{' :: (tail ++ post) = pre ++ ('{' :: tail) ++ post := by
                  simp
                rw [hre]
                exact hex
              have hpj' : parseJson ('{' :: (p2 ++ ['}'])) = none := by
                have hre2 : ('{' :: (p2 ++ ['}']) : List Char) = '{' :: p2 ++ ['}'] := by
                  simp
                rw [hre2]
                exact hpj
              simp [analyze_news, hex', hpj', isErrorRes]
      · rw [if_neg hws] at h2
        exact Option.noConfusion h2

theorem extract_nested_truncation_amended_witness :
    ∃ s rest,
      extract_json (chars "Sure: "
          ++ ('{' :: chars "\"verdict\": \x7b\"a\": 1\x7d, \"reason\": \"x\", \"credibility_score\": 5\x7d")
          ++ chars " ok") = some s ∧
      '{' :: chars "\"verdict\": \x7b\"a\": 1\x7d, \"reason\": \"x\", \"credibility_score\": 5\x7d"
        = s ++ rest ∧
      rest ≠ [] ∧
      parseJson s = none ∧
      isErrorRes (analyze_news true (Except.ok (chars "Sure: "
          ++ ('{' :: chars "\"verdict\": \x7b\"a\": 1\x7d, \"reason\": \"x\", \"credibility_score\": 5\x7d")
          ++ chars " ok"))) = true :=
  (extract_nested_truncation_amended).2 (chars "Sure: ")
    (chars "\"verdict\": \x7b\"a\": 1\x7d, \"reason\": \"x\", \"credibility_score\": 5\x7d")
    (chars " ok")
    [(chars "verdict", Json.obj [(chars "a", Json.num 1)]),
     (chars "reason", Json.str (chars "x")),
     (chars "credibility_score", Json.num 5)]
    (chars "verdict") [(chars "a", Json.num 1)]
    (by decide) (by rfl) (List.mem_cons_self _ _)

/-- C8 counterexample to the unconditional claim: a reply that carries an
earlier brace pair before a perfectly valid JSON object with a nested
object-valued member. The extractor returns the earlier pair, which is not a
prefix of the object at all. -/
theorem extract_nested_truncation_counterexample :
    parseJson (chars "\x7b\"verdict\": \x7b\"a\": 1\x7d, \"reason\": \"x\", \"credibility_score\": 5\x7d")
      = some (Json.obj [(chars "verdict", Json.obj [(chars "a", Json.num 1)]),
          (chars "reason", Json.str (chars "x")),
          (chars "credibility_score", Json.num 5)]) ∧
    chars "note \x7bx\x7d \x7b\"verdict\": \x7b\"a\": 1\x7d, \"reason\": \"x\", \"credibility_score\": 5\x7d"
      = chars "note \x7bx\x7d "
        ++ chars "\x7b\"verdict\": \x7b\"a\": 1\x7d, \"reason\": \"x\", \"credibility_score\": 5\x7d" ∧
    extract_json (chars "note \x7bx\x7d \x7b\"verdict\": \x7b\"a\": 1\x7d, \"reason\": \"x\", \"credibility_score\": 5\x7d")
      = some (chars "\x7bx\x7d") ∧
    (∀ rest : List Char,
      chars "\x7b\"verdict\": \x7b\"a\": 1\x7d, \"reason\": \"x\", \"credibility_score\": 5\x7d"
        ≠ chars "\x7bx\x7d" ++ rest) := by
  refine ⟨by rfl, by rfl, by rfl, ?_⟩
  intro rest h
  have h2 : (['{', '"', 'v'] : List Char) = ['{', 'x', '}'] := congrArg (List.take 3) h
  exact absurd h2 (by decide)
